import Mathlib

/-!
Verification of the compressed sparse matrix storage engine.

The definitions below are a shallow embedding of the compressed format:
the `Compressed` structure and its operations `get`, `set`, `resize`,
`retain`, the conversions with the dense (`Conventional`) and `Diagonal`
formats, and the sparse-times-dense multiply kernel.  Machine integers
(`usize`) are modelled as `Nat`; element values are modelled as `Int`
(an instance of the `Element` capability: decidable equality and a zero).
Indexing a vector is modelled by `List.getD` with default values; every
theorem below only relies on accesses that are in bounds in the source.
-/

namespace MatrixSpec

/-- The format variant of a compressed matrix: compressed-column or
compressed-row. -/
inductive Variant where
  | column
  | row
deriving DecidableEq

/-- A compressed sparse matrix, mirroring the structure of the source:
dimensions, the count of stored entries, the variant, the stored values,
their minor-dimension indices, and the per-major-group offsets. -/
structure Compressed where
  rows : Nat
  columns : Nat
  nonzeros : Nat
  variant : Variant
  values : List Int
  indices : List Nat
  offsets : List Nat
deriving DecidableEq

/-- The major dimension: columns for the column variant, rows for the row
variant. -/
def Compressed.majorDim (m : Compressed) : Nat :=
  match m.variant with
  | Variant.column => m.columns
  | Variant.row => m.rows

/-- The minor dimension: rows for the column variant, columns for the row
variant. -/
def Compressed.minorDim (m : Compressed) : Nat :=
  match m.variant with
  | Variant.column => m.rows
  | Variant.row => m.columns

/-- Create a zero matrix: no stored entries and a zero-filled offsets
vector of length one more than the major dimension. -/
def Compressed.new (rows columns : Nat) (variant : Variant) : Compressed :=
  { rows := rows, columns := columns, nonzeros := 0, variant := variant,
    values := [], indices := [],
    offsets :=
      match variant with
      | Variant.column => List.replicate (columns + 1) 0
      | Variant.row => List.replicate (rows + 1) 0 }

/-- The scan of `get`: walk positions `k, k+1, ...` up to `stop`; return the
paired value on an exact index match, stop with zero as soon as a scanned
index exceeds the sought minor index, and return zero when the range is
exhausted. -/
def scanGet (indices : List Nat) (values : List Int) (i : Nat) (k stop : Nat) : Int :=
  if k < stop then
    if indices.getD k 0 = i then values.getD k 0
    else if indices.getD k 0 > i then 0
    else scanGet indices values i (k + 1) stop
  else 0
termination_by stop - k

/-- Normalize a (row, column) coordinate pair to (minor, major): the pair
is swapped for the row variant. -/
def normPos (variant : Variant) (i j : Nat) : Nat × Nat :=
  match variant with
  | Variant.column => (i, j)
  | Variant.row => (j, i)

/-- Read an element.  Coordinates are normalized to (minor, major) by the
variant; the major group's position range is scanned. -/
def Compressed.get (m : Compressed) (i j : Nat) : Int :=
  let p := normPos m.variant i j
  scanGet m.indices m.values p.1 (m.offsets.getD p.2 0) (m.offsets.getD (p.2 + 1) 0)

/-- The scan of `set`: walk positions `k, k+1, ...` up to `stop`; on an
exact index match return the position and `true`; at the first index
exceeding the sought minor index, or at the end of the range, return that
position and `false`. -/
def scanFind (indices : List Nat) (i : Nat) (k stop : Nat) : Nat × Bool :=
  if k < stop then
    if indices.getD k 0 = i then (k, true)
    else if indices.getD k 0 > i then (k, false)
    else scanFind indices i (k + 1) stop
  else (k, false)
termination_by stop - k

/-- Assign a value to an element.  On an exact match the value is
overwritten in place; otherwise the entry is inserted at the found
position, the count of stored entries grows by one, and every offset
strictly after the affected group grows by one.  Zero values are treated
as any other. -/
def Compressed.set (m : Compressed) (i j : Nat) (v : Int) : Compressed :=
  let p := normPos m.variant i j
  let r := scanFind m.indices p.1 (m.offsets.getD p.2 0) (m.offsets.getD (p.2 + 1) 0)
  if r.2 then
    { m with values := m.values.set r.1 v }
  else
    { m with
      nonzeros := m.nonzeros + 1,
      values := m.values.insertIdx r.1 v,
      indices := m.indices.insertIdx r.1 p.1,
      offsets := m.offsets.take (p.2 + 1) ++ (m.offsets.drop (p.2 + 1)).map (fun x => x + 1) }

/-- The inner while loop of `retain`: advance the major-group pointer
while the next group's starting offset is at or before the scan
position. -/
def advanceMajor (offsets : List Nat) (k major : Nat) : Nat :=
  if h : major + 1 < offsets.length ∧ offsets.getD (major + 1) 0 ≤ k then
    advanceMajor offsets k (major + 1)
  else major
termination_by offsets.length - major

/-- Apply the retain predicate to the entry at a major group and a stored
(minor index, value) pair, denormalizing coordinates per the variant. -/
def condAt (variant : Variant) (cond : Nat → Nat → Int → Bool)
    (major minor : Nat) (v : Int) : Bool :=
  match variant with
  | Variant.column => cond minor major v
  | Variant.row => cond major minor v

/-- The loop of `retain`: a single left-to-right pass.  A kept entry
advances the scan position; a removed entry is deleted from `values` and
`indices`, the stored-entry count drops by one, every offset strictly
after the current group drops by one, and the scan position stays put. -/
def retainLoop (cond : Nat → Nat → Int → Bool) (m : Compressed) (k major : Nat) :
    Compressed :=
  if h : k < m.indices.length then
    let major := advanceMajor m.offsets k major
    if condAt m.variant cond major (m.indices.getD k 0) (m.values.getD k 0) then
      retainLoop cond m (k + 1) major
    else
      retainLoop cond
        { m with
          nonzeros := m.nonzeros - 1,
          values := m.values.eraseIdx k,
          indices := m.indices.eraseIdx k,
          offsets := m.offsets.take (major + 1) ++
            (m.offsets.drop (major + 1)).map (fun x => x - 1) }
        k major
  else m
termination_by m.indices.length - k
decreasing_by
  · omega
  · rw [List.length_eraseIdx, if_pos h]
    omega

/-- Retain the elements that satisfy a condition and discard the rest. -/
def Compressed.retain (m : Compressed) (cond : Nat → Nat → Int → Bool) : Compressed :=
  retainLoop cond m 0 0

/-- The pruning step of `resize`: when a dimension shrinks, drop the
entries that fall out of range. -/
def resizePrune (m : Compressed) (rows columns : Nat) : Compressed :=
  if rows < m.rows ∨ columns < m.columns then
    m.retain (fun a b _ => decide (a < rows) && decide (b < columns))
  else m

/-- The offsets adjustment of `resize`: truncate the offsets to the new
major count when it shrank, extend them with the stored-entry count when
it grew. -/
def resizeOffsets (offsets : List Nat) (nonzeros a b : Nat) : List Nat :=
  if a > b then offsets.take (b + 1)
  else if a < b then offsets ++ List.replicate (b - a) nonzeros
  else offsets

/-- Resize the matrix: prune out-of-range entries first when a dimension
shrinks, then truncate or extend the offsets vector to the new major
count, then update the dimensions. -/
def Compressed.resize (m : Compressed) (rows columns : Nat) : Compressed :=
  let m := resizePrune m rows columns
  let fromInto : Nat × Nat :=
    match m.variant with
    | Variant.column => (m.columns, columns)
    | Variant.row => (m.rows, rows)
  let offsets := resizeOffsets m.offsets m.nonzeros fromInto.1 fromInto.2
  { m with rows := rows, columns := columns, offsets := offsets }

/-- The `nonzeros()` trait method: fold over the stored values counting
those that are not the element type's zero. -/
def Compressed.nonzerosCount (m : Compressed) : Nat :=
  m.values.foldl (fun sum v => if v = 0 then sum else sum + 1) 0

/-- A dense matrix: dimensions and a flat value buffer in column-major
order. -/
structure Conventional where
  rows : Nat
  columns : Nat
  values : List Int
deriving DecidableEq

/-- A diagonal matrix: dimensions and the diagonal values. -/
structure Diagonal where
  rows : Nat
  columns : Nat
  values : List Int
deriving DecidableEq

/-- The loop of the dense-to-compressed conversion: enumerate the dense
buffer in column-major order and `set` each value that is not zero at the
coordinate decoded from its flat position. -/
def fromConvLoop (rows : Nat) : Nat → List Int → Compressed → Compressed
  | _, [], m => m
  | k, v :: rest, m =>
      fromConvLoop rows (k + 1) rest (if v = 0 then m else m.set (k % rows) (k / rows) v)

/-- Convert a dense matrix to a compressed matrix (column variant). -/
def compressedFromConventional (c : Conventional) : Compressed :=
  fromConvLoop c.rows 0 c.values (Compressed.new c.rows c.columns Variant.column)

/-- The inner loop of the compressed-to-dense conversion, column variant:
write the stored values of column `j` into the dense buffer. -/
def writeColLoop (indices : List Nat) (values : List Int) (rows j : Nat)
    (k stop : Nat) (buf : List Int) : List Int :=
  if k < stop then
    writeColLoop indices values rows j (k + 1) stop
      (buf.set (j * rows + indices.getD k 0) (values.getD k 0))
  else buf
termination_by stop - k

/-- The inner loop of the compressed-to-dense conversion, row variant:
write the stored values of row `i` into the dense buffer. -/
def writeRowLoop (indices : List Nat) (values : List Int) (rows i : Nat)
    (k stop : Nat) (buf : List Int) : List Int :=
  if k < stop then
    writeRowLoop indices values rows i (k + 1) stop
      (buf.set (indices.getD k 0 * rows + i) (values.getD k 0))
  else buf
termination_by stop - k

/-- Convert a compressed matrix to a dense matrix: zero-fill a buffer and
write every stored entry at its column-major position. -/
def conventionalFromCompressed (m : Compressed) : Conventional :=
  let buf := List.replicate (m.rows * m.columns) (0 : Int)
  let buf :=
    match m.variant with
    | Variant.row =>
        (List.range m.rows).foldl
          (fun buf i =>
            writeRowLoop m.indices m.values m.rows i
              (m.offsets.getD i 0) (m.offsets.getD (i + 1) 0) buf) buf
    | Variant.column =>
        (List.range m.columns).foldl
          (fun buf j =>
            writeColLoop m.indices m.values m.rows j
              (m.offsets.getD j 0) (m.offsets.getD (j + 1) 0) buf) buf
  { rows := m.rows, columns := m.columns, values := buf }

/-- Convert a diagonal matrix to a compressed matrix (column variant):
the diagonal values become the stored values, the indices count up from
zero, and the offsets climb by one per column until the diagonal ends. -/
def compressedFromDiagonal (d : Diagonal) : Compressed :=
  let nonzeros := d.values.length
  { rows := d.rows, columns := d.columns, nonzeros := nonzeros,
    variant := Variant.column,
    values := d.values,
    indices := List.range nonzeros,
    offsets := (List.range (d.columns + 1)).map
      (fun i => if i < nonzeros then i else nonzeros) }

/-- The inner loop of the sparse-times-vector kernel over one major group:
for each stored entry, add the product of its value and the group's
vector coefficient into the output at the entry's minor index. -/
def mulGroupLoop (indices : List Nat) (values : List Int) (bj : Int)
    (k stop : Nat) (c : List Int) : List Int :=
  if k < stop then
    mulGroupLoop indices values bj (k + 1) stop
      (c.set (indices.getD k 0)
        (c.getD (indices.getD k 0) 0 + values.getD k 0 * bj))
  else c
termination_by stop - k

/-- The sparse-times-vector kernel: accumulate, for each column `j` of the
compressed left operand, its stored entries scaled by `b[j]`. -/
def multiplyVectorLeft (a : Compressed) (b c : List Int) (p : Nat) : List Int :=
  (List.range p).foldl
    (fun c j =>
      mulGroupLoop a.indices a.values (b.getD j 0)
        (a.offsets.getD j 0) (a.offsets.getD (j + 1) 0) c) c

/-- The sparse-times-dense kernel: for each of the `n` output columns,
run the sparse-times-vector kernel on the matching slices of the dense
operand and the output buffer. -/
def multiplyMatrixLeft (a : Compressed) (b c : List Int) (m p n : Nat) : List Int :=
  (List.range n).foldl
    (fun c col =>
      let bslice := (b.drop (col * p)).take p
      let cslice := (c.drop (col * m)).take m
      c.take (col * m) ++ multiplyVectorLeft a bslice cslice p ++ c.drop (col * m + m))
    c

/-- The `multiply_into` entry point for a compressed left operand and a
dense right operand: the output column count is the dense buffer length
divided by the shared dimension. -/
def Compressed.multiplyInto (a : Compressed) (b c : List Int) : List Int :=
  multiplyMatrixLeft a b c a.rows a.columns (b.length / a.columns)

/-- The representation invariant over the raw parts of a compressed
matrix: the stored-entry count matches the lengths of `values` and
`indices`; `offsets` has one more element than the major count, starts at
zero, is monotone non-decreasing, and ends at the stored-entry count;
within each major group the indices are strictly increasing (hence
unique); and every index is below the minor count. -/
structure PartsInv (values : List Int) (indices offsets : List Nat)
    (nonzeros majorCount minorCount : Nat) : Prop where
  values_len : values.length = nonzeros
  indices_len : indices.length = nonzeros
  offsets_len : offsets.length = majorCount + 1
  offsets_zero : offsets.getD 0 0 = 0
  offsets_mono : ∀ j, j + 1 ≤ majorCount → offsets.getD j 0 ≤ offsets.getD (j + 1) 0
  offsets_last : offsets.getD majorCount 0 = nonzeros
  sorted : ∀ j k, j < majorCount → offsets.getD j 0 ≤ k →
    k + 1 < offsets.getD (j + 1) 0 → indices.getD k 0 < indices.getD (k + 1) 0
  inRange : ∀ k, k < nonzeros → indices.getD k 0 < minorCount

/-- The representation invariant of a compressed matrix. -/
def Invariant (m : Compressed) : Prop :=
  PartsInv m.values m.indices m.offsets m.nonzeros m.majorDim m.minorDim

/-- An executable check of the representation invariant, for evaluating
it on concrete matrices. -/
def Compressed.invariantHolds (m : Compressed) : Bool :=
  decide (m.values.length = m.nonzeros) &&
  decide (m.indices.length = m.nonzeros) &&
  decide (m.offsets.length = m.majorDim + 1) &&
  decide (m.offsets.getD 0 0 = 0) &&
  ((List.range m.majorDim).all fun j =>
    decide (m.offsets.getD j 0 ≤ m.offsets.getD (j + 1) 0)) &&
  decide (m.offsets.getD m.majorDim 0 = m.nonzeros) &&
  ((List.range m.majorDim).all fun j =>
    (List.range m.nonzeros).all fun k =>
      !(decide (m.offsets.getD j 0 ≤ k) && decide (k + 1 < m.offsets.getD (j + 1) 0)) ||
        decide (m.indices.getD k 0 < m.indices.getD (k + 1) 0)) &&
  ((List.range m.nonzeros).all fun k => decide (m.indices.getD k 0 < m.minorDim))

/-- Whether the matrix has a stored entry at a coordinate: some position
of the coordinate's major group carries the coordinate's minor index. -/
def Compressed.stored (m : Compressed) (i j : Nat) : Bool :=
  let p := normPos m.variant i j
  (List.range m.nonzeros).any fun k =>
    decide (m.offsets.getD p.2 0 ≤ k) && decide (k < m.offsets.getD (p.2 + 1) 0) &&
      decide (m.indices.getD k 0 = p.1)

section ListLemmas

variable {α : Type _}

theorem getD_set_self (l : List α) (k : Nat) (a d : α) (h : k < l.length) :
    (l.set k a).getD k d = a := by
  rw [List.getD_eq_getElem?_getD, List.getElem?_set_self h, Option.getD_some]

theorem getD_set_ne (l : List α) (k t : Nat) (a d : α) (h : t ≠ k) :
    (l.set k a).getD t d = l.getD t d := by
  rw [List.getD_eq_getElem?_getD, List.getElem?_set_ne (Ne.symm h),
    ← List.getD_eq_getElem?_getD]

theorem getD_insertIdx_lt :
    ∀ (l : List α) (k t : Nat) (a d : α), t < k →
      (l.insertIdx k a).getD t d = l.getD t d
  | _, 0, t, _, _, ht => absurd ht (Nat.not_lt_zero t)
  | [], k + 1, t, a, d, _ => by
      rw [List.insertIdx_succ_nil]
  | x :: xs, k + 1, 0, a, d, _ => by
      rw [List.insertIdx_succ_cons]; rfl
  | x :: xs, k + 1, t + 1, a, d, ht => by
      rw [List.insertIdx_succ_cons]
      show (xs.insertIdx k a).getD t d = xs.getD t d
      exact getD_insertIdx_lt xs k t a d (Nat.lt_of_succ_lt_succ ht)

theorem getD_insertIdx_self :
    ∀ (l : List α) (k : Nat) (a d : α), k ≤ l.length →
      (l.insertIdx k a).getD k d = a
  | l, 0, a, d, _ => by rw [List.insertIdx_zero]; rfl
  | [], k + 1, a, d, hk => absurd hk (by simp)
  | x :: xs, k + 1, a, d, hk => by
      rw [List.insertIdx_succ_cons]
      show (xs.insertIdx k a).getD k d = a
      exact getD_insertIdx_self xs k a d (Nat.le_of_succ_le_succ hk)

theorem getD_insertIdx_gt :
    ∀ (l : List α) (k t : Nat) (a d : α), k < t →
      (l.insertIdx k a).getD t d = l.getD (t - 1) d
  | l, 0, t + 1, a, d, _ => by rw [List.insertIdx_zero]; rfl
  | [], k + 1, t, a, d, _ => by
      rw [List.insertIdx_succ_nil]
      rcases t with _ | u <;> rfl
  | x :: xs, k + 1, t + 1, a, d, ht => by
      rw [List.insertIdx_succ_cons]
      show (xs.insertIdx k a).getD t d = (x :: xs).getD t d
      have hk : k < t := Nat.lt_of_succ_lt_succ ht
      rcases t with _ | u
      · exact absurd hk (Nat.not_lt_zero k)
      · show (xs.insertIdx k a).getD (u + 1) d = xs.getD u d
        rw [getD_insertIdx_gt xs k (u + 1) a d hk]
        rfl

theorem getD_eraseIdx_lt :
    ∀ (l : List α) (k t : Nat) (d : α), t < k →
      (l.eraseIdx k).getD t d = l.getD t d
  | [], _, _, _, _ => by rw [List.eraseIdx_nil]
  | _ :: _, 0, t, _, ht => absurd ht (Nat.not_lt_zero t)
  | x :: xs, k + 1, 0, d, _ => rfl
  | x :: xs, k + 1, t + 1, d, ht =>
      getD_eraseIdx_lt xs k t d (Nat.lt_of_succ_lt_succ ht)

theorem getD_eraseIdx_ge :
    ∀ (l : List α) (k t : Nat) (d : α), k ≤ t →
      (l.eraseIdx k).getD t d = l.getD (t + 1) d
  | [], _, _, _, _ => by rw [List.eraseIdx_nil]; rfl
  | x :: xs, 0, t, d, _ => rfl
  | x :: xs, k + 1, t, d, ht => by
      have hk : k ≤ t - 1 := by omega
      rcases t with _ | u
      · exact absurd ht (by omega)
      · exact getD_eraseIdx_ge xs k u d (by omega)

theorem getD_take_of_lt (l : List α) (n t : Nat) (d : α) (h : t < n) :
    (l.take n).getD t d = l.getD t d := by
  rw [List.getD_eq_getElem?_getD, List.getElem?_take, if_pos h,
    ← List.getD_eq_getElem?_getD]

theorem getD_drop_add (l : List α) (n t : Nat) (d : α) :
    (l.drop n).getD t d = l.getD (n + t) d := by
  rw [List.getD_eq_getElem?_getD, List.getElem?_drop, ← List.getD_eq_getElem?_getD]

theorem getD_append_left (l₁ l₂ : List α) (t : Nat) (d : α) (h : t < l₁.length) :
    (l₁ ++ l₂).getD t d = l₁.getD t d :=
  List.getD_append l₁ l₂ d t h

theorem getD_append_right (l₁ l₂ : List α) (t : Nat) (d : α) (h : l₁.length ≤ t) :
    (l₁ ++ l₂).getD t d = l₂.getD (t - l₁.length) d := by
  rw [List.getD_eq_getElem?_getD, List.getElem?_append_right h,
    ← List.getD_eq_getElem?_getD]

theorem getD_replicate_of_lt (n t : Nat) (a d : α) (h : t < n) :
    (List.replicate n a).getD t d = a := by
  rw [List.getD_eq_getElem?_getD, List.getElem?_replicate, if_pos h, Option.getD_some]

theorem getD_map_of_lt (l : List Nat) (f : Nat → Nat) (t : Nat) (h : t < l.length) :
    (l.map f).getD t 0 = f (l.getD t 0) := by
  rw [List.getD_eq_getElem (l.map f) 0 (by simpa using h), List.getElem_map,
    List.getD_eq_getElem l 0 h]

theorem length_shiftTail (o : List Nat) (j : Nat) (f : Nat → Nat) (hj : j + 1 ≤ o.length) :
    (o.take (j + 1) ++ (o.drop (j + 1)).map f).length = o.length := by
  rw [List.length_append, List.length_map, List.length_take, List.length_drop]
  omega

theorem getD_shiftTail (o : List Nat) (j t : Nat) (f : Nat → Nat) (hj : j + 1 ≤ o.length) :
    (o.take (j + 1) ++ (o.drop (j + 1)).map f).getD t 0 =
      if t < j + 1 then o.getD t 0 else if t < o.length then f (o.getD t 0) else 0 := by
  by_cases h1 : t < j + 1
  · rw [if_pos h1, getD_append_left _ _ _ _ (by rw [List.length_take]; omega),
      getD_take_of_lt _ _ _ _ h1]
  · rw [if_neg h1, getD_append_right _ _ _ _ (by rw [List.length_take]; omega)]
    rw [List.length_take, Nat.min_eq_left hj]
    by_cases h2 : t < o.length
    · rw [if_pos h2, getD_map_of_lt _ _ _ (by rw [List.length_drop]; omega),
        getD_drop_add]
      congr 2
      omega
    · rw [if_neg h2, List.getD_eq_default]
      rw [List.length_map, List.length_drop]
      omega

end ListLemmas

/-- Monotonicity of adjacent offsets extends to any two bounded positions. -/
theorem offsets_mono_trans (o : List Nat) (n : Nat)
    (hmono : ∀ j, j + 1 ≤ n → o.getD j 0 ≤ o.getD (j + 1) 0) :
    ∀ a b, a ≤ b → b ≤ n → o.getD a 0 ≤ o.getD b 0 := by
  intro a b
  induction b with
  | zero => intro hab _; have ha : a = 0 := by omega
            rw [ha]
  | succ b ih =>
    intro hab hbn
    by_cases h : a = b + 1
    · rw [h]
    · exact le_trans (ih (by omega) (by omega)) (hmono b hbn)

/-- Every position strictly below the offset at `n` falls in some group
below `n`, as long as the offsets start at zero. -/
theorem exists_group (o : List Nat) (n k : Nat)
    (h0 : o.getD 0 0 = 0) (hk : k < o.getD n 0) :
    ∃ j, j < n ∧ o.getD j 0 ≤ k ∧ k < o.getD (j + 1) 0 := by
  induction n with
  | zero => omega
  | succ n ih =>
    by_cases h : k < o.getD n 0
    · obtain ⟨j, h1, h2, h3⟩ := ih h
      exact ⟨j, by omega, h2, h3⟩
    · exact ⟨n, by omega, by omega, hk⟩

namespace PartsInv

variable {values : List Int} {indices offsets : List Nat}
variable {nonzeros majorCount minorCount : Nat}

theorem offsets_le (hp : PartsInv values indices offsets nonzeros majorCount minorCount)
    (a b : Nat) (hab : a ≤ b) (hb : b ≤ majorCount) :
    offsets.getD a 0 ≤ offsets.getD b 0 :=
  offsets_mono_trans offsets majorCount hp.offsets_mono a b hab hb

theorem offsets_le_nonzeros
    (hp : PartsInv values indices offsets nonzeros majorCount minorCount)
    (j : Nat) (hj : j ≤ majorCount) : offsets.getD j 0 ≤ nonzeros := by
  rw [← hp.offsets_last]
  exact hp.offsets_le j majorCount hj le_rfl

theorem sorted_lt_aux (hp : PartsInv values indices offsets nonzeros majorCount minorCount)
    (j k1 : Nat) (hj : j < majorCount) (h1 : offsets.getD j 0 ≤ k1) :
    ∀ d, k1 + d + 1 < offsets.getD (j + 1) 0 →
      indices.getD k1 0 < indices.getD (k1 + d + 1) 0 := by
  intro d
  induction d with
  | zero => intro h2; exact hp.sorted j k1 hj h1 h2
  | succ d ih =>
    intro h2
    exact lt_trans (ih (by omega))
      (hp.sorted j (k1 + d + 1) hj (by omega) (by omega))

/-- Strict increase of indices between any two positions of one group. -/
theorem sorted_lt (hp : PartsInv values indices offsets nonzeros majorCount minorCount)
    (j k1 k2 : Nat) (hj : j < majorCount) (h1 : offsets.getD j 0 ≤ k1) (h12 : k1 < k2)
    (h2 : k2 < offsets.getD (j + 1) 0) : indices.getD k1 0 < indices.getD k2 0 := by
  obtain ⟨d, rfl⟩ : ∃ d, k2 = k1 + d + 1 := ⟨k2 - k1 - 1, by omega⟩
  exact hp.sorted_lt_aux j k1 hj h1 d h2

end PartsInv

/-- The executable invariant check implies the invariant. -/
theorem Invariant.of_bool (m : Compressed) (h : m.invariantHolds = true) : Invariant m := by
  unfold Compressed.invariantHolds at h
  simp only [Bool.and_eq_true, List.all_eq_true, List.mem_range, decide_eq_true_eq,
    Bool.or_eq_true, Bool.not_eq_true', Bool.and_eq_false_iff, decide_eq_false_iff_not,
    Nat.not_le, Nat.not_lt] at h
  obtain ⟨⟨⟨⟨⟨⟨⟨h1, h2⟩, h3⟩, h4⟩, h5⟩, h6⟩, h7⟩, h8⟩ := h
  have hmono : ∀ j, j + 1 ≤ m.majorDim →
      m.offsets.getD j 0 ≤ m.offsets.getD (j + 1) 0 := fun j hj => h5 j (by omega)
  refine ⟨h1, h2, h3, h4, hmono, h6, ?_, h8⟩
  intro j k hj hk1 hk2
  have hle : m.offsets.getD (j + 1) 0 ≤ m.nonzeros := by
    rw [← h6]
    exact offsets_mono_trans m.offsets m.majorDim hmono (j + 1) m.majorDim (by omega) le_rfl
  have hkn : k < m.nonzeros := by omega
  rcases h7 j hj k hkn with hc | hc
  · rcases hc with hc | hc <;> omega
  · exact hc

/-- The scan of `get` returns zero when no position of the range carries
the sought index. -/
theorem scanGet_eq_zero_of_none (indices : List Nat) (values : List Int) (i : Nat)
    (s e : Nat) (h : ∀ t, s ≤ t → t < e → indices.getD t 0 ≠ i) :
    scanGet indices values i s e = 0 := by
  rw [scanGet]
  by_cases hs : s < e
  · rw [if_pos hs, if_neg (h s le_rfl hs)]
    by_cases hgt : indices.getD s 0 > i
    · rw [if_pos hgt]
    · rw [if_neg hgt]
      exact scanGet_eq_zero_of_none indices values i (s + 1) e
        (fun t ht1 ht2 => h t (by omega) ht2)
  · rw [if_neg hs]
termination_by e - s

/-- The scan of `get` returns the paired value of a matching position when
the indices of the scanned range are strictly increasing. -/
theorem scanGet_eq_of_found (indices : List Nat) (values : List Int) (i : Nat)
    (s e k : Nat)
    (hsort : ∀ t1 t2, s ≤ t1 → t1 < t2 → t2 < e → indices.getD t1 0 < indices.getD t2 0)
    (hs : s ≤ k) (hk : k < e) (hi : indices.getD k 0 = i) :
    scanGet indices values i s e = values.getD k 0 := by
  rw [scanGet, if_pos (lt_of_le_of_lt hs hk)]
  by_cases heq : indices.getD s 0 = i
  · have hsk : s = k := by
      by_contra hne
      have hlt := hsort s k le_rfl (lt_of_le_of_ne hs hne) hk
      omega
    rw [if_pos heq, hsk]
  · rw [if_neg heq]
    have hsk : s < k := lt_of_le_of_ne hs (fun he => heq (he ▸ hi))
    have hlt := hsort s k le_rfl hsk hk
    rw [if_neg (by omega)]
    exact scanGet_eq_of_found indices values i (s + 1) e k
      (fun t1 t2 ha hb hc => hsort t1 t2 (by omega) hb hc) hsk hk hi
termination_by e - s

/-- Characterization of the scan of `set`: the result position is inside
the scanned range, every earlier index of the range is strictly below the
sought index, a match reports the matching position, and a miss stops at
the end of the range or at the first larger index. -/
theorem scanFind_spec (indices : List Nat) (i : Nat) (s e : Nat) (hse : s ≤ e) :
    s ≤ (scanFind indices i s e).1 ∧ (scanFind indices i s e).1 ≤ e ∧
    (∀ t, s ≤ t → t < (scanFind indices i s e).1 → indices.getD t 0 < i) ∧
    ((scanFind indices i s e).2 = true →
      (scanFind indices i s e).1 < e ∧ indices.getD (scanFind indices i s e).1 0 = i) ∧
    ((scanFind indices i s e).2 = false →
      (scanFind indices i s e).1 = e ∨ i < indices.getD (scanFind indices i s e).1 0) := by
  rw [scanFind]
  by_cases hs : s < e
  · rw [if_pos hs]
    by_cases heq : indices.getD s 0 = i
    · rw [if_pos heq]
      exact ⟨le_rfl, by omega, by omega, fun _ => ⟨hs, heq⟩, by simp⟩
    · rw [if_neg heq]
      by_cases hgt : indices.getD s 0 > i
      · rw [if_pos hgt]
        exact ⟨le_rfl, by omega, by omega, by simp, fun _ => Or.inr hgt⟩
      · rw [if_neg hgt]
        obtain ⟨r1, r2, r3, r4, r5⟩ := scanFind_spec indices i (s + 1) e hs
        refine ⟨by omega, r2, ?_, r4, r5⟩
        intro t ht1 ht2
        by_cases hts : t = s
        · rw [hts]; omega
        · exact r3 t (by omega) ht2
  · rw [if_neg hs]
    have he : s = e := by omega
    exact ⟨le_rfl, by omega, by omega, by simp, fun _ => Or.inl he⟩
termination_by e - s

/-- The scan of `get` only depends on the entries of the scanned range. -/
theorem scanGet_congr (ind1 ind2 : List Nat) (val1 val2 : List Int) (i : Nat)
    (s e : Nat)
    (hid : ∀ t, s ≤ t → t < e → ind1.getD t 0 = ind2.getD t 0)
    (hvl : ∀ t, s ≤ t → t < e → val1.getD t 0 = val2.getD t 0) :
    scanGet ind1 val1 i s e = scanGet ind2 val2 i s e := by
  conv_lhs => rw [scanGet]
  conv_rhs => rw [scanGet]
  by_cases hse : s < e
  · rw [if_pos hse, if_pos hse, hid s le_rfl hse, hvl s le_rfl hse]
    by_cases h1 : ind2.getD s 0 = i
    · rw [if_pos h1, if_pos h1]
    · rw [if_neg h1, if_neg h1]
      by_cases h2 : ind2.getD s 0 > i
      · rw [if_pos h2, if_pos h2]
      · rw [if_neg h2, if_neg h2]
        exact scanGet_congr ind1 ind2 val1 val2 i (s + 1) e
          (fun t h1 h2 => hid t (by omega) h2) (fun t h1 h2 => hvl t (by omega) h2)
  · rw [if_neg hse, if_neg hse]
termination_by e - s

/-- The scan of `get` over a range whose entries appear shifted by `d`
positions in another pair of lists. -/
theorem scanGet_shift (ind1 ind2 : List Nat) (val1 val2 : List Int) (i d : Nat)
    (s e : Nat)
    (hid : ∀ t, s ≤ t → t < e → ind1.getD (t + d) 0 = ind2.getD t 0)
    (hvl : ∀ t, s ≤ t → t < e → val1.getD (t + d) 0 = val2.getD t 0) :
    scanGet ind1 val1 i (s + d) (e + d) = scanGet ind2 val2 i s e := by
  conv_lhs => rw [scanGet]
  conv_rhs => rw [scanGet]
  by_cases hse : s < e
  · rw [if_pos (show s + d < e + d by omega), if_pos hse,
      hid s le_rfl hse, hvl s le_rfl hse]
    by_cases h1 : ind2.getD s 0 = i
    · rw [if_pos h1, if_pos h1]
    · rw [if_neg h1, if_neg h1]
      by_cases h2 : ind2.getD s 0 > i
      · rw [if_pos h2, if_pos h2]
      · rw [if_neg h2, if_neg h2]
        have hrec := scanGet_shift ind1 ind2 val1 val2 i d (s + 1) e
          (fun t h1 h2 => hid t (by omega) h2) (fun t h1 h2 => hvl t (by omega) h2)
        rw [Nat.add_right_comm s 1 d] at hrec
        exact hrec
  · rw [if_neg (show ¬s + d < e + d by omega), if_neg hse]
termination_by e - s

/-- Overwriting the value at a position whose index is not the sought one
does not change the scan of `get`. -/
theorem scanGet_set_value_of_ne_idx (indices : List Nat) (values : List Int)
    (i : Nat) (s e k0 : Nat) (v : Int) (h : indices.getD k0 0 ≠ i) :
    scanGet indices (values.set k0 v) i s e = scanGet indices values i s e := by
  conv_lhs => rw [scanGet]
  conv_rhs => rw [scanGet]
  by_cases hse : s < e
  · rw [if_pos hse, if_pos hse]
    by_cases h1 : indices.getD s 0 = i
    · rw [if_pos h1, if_pos h1]
      exact getD_set_ne values k0 s v 0 (fun hc => h (hc ▸ h1))
    · rw [if_neg h1, if_neg h1]
      by_cases h2 : indices.getD s 0 > i
      · rw [if_pos h2, if_pos h2]
      · rw [if_neg h2, if_neg h2]
        exact scanGet_set_value_of_ne_idx indices values i (s + 1) e k0 v h
  · rw [if_neg hse, if_neg hse]
termination_by e - s

/-- Scanning for an index different from a freshly inserted one is the
same as scanning the original lists, when the insertion position respects
the sortedness of the scanned range. -/
theorem scanGet_insert_ne (indices : List Nat) (values : List Int) (i i0 : Nat)
    (v : Int) (s e k0 : Nat) (hne : i0 ≠ i) (hs : s ≤ k0) (he : k0 ≤ e)
    (hlen : k0 ≤ indices.length) (hlenv : k0 ≤ values.length)
    (hbefore : ∀ t, s ≤ t → t < k0 → indices.getD t 0 < i0)
    (hafter : k0 < e → i0 < indices.getD k0 0) :
    scanGet (indices.insertIdx k0 i0) (values.insertIdx k0 v) i s (e + 1) =
      scanGet indices values i s e := by
  rcases Nat.lt_or_ge s k0 with hsk | hsk
  · have hidx : (indices.insertIdx k0 i0).getD s 0 = indices.getD s 0 :=
      getD_insertIdx_lt _ _ _ _ _ hsk
    have hval : (values.insertIdx k0 v).getD s 0 = values.getD s 0 :=
      getD_insertIdx_lt _ _ _ _ _ hsk
    conv_lhs => rw [scanGet]
    conv_rhs => rw [scanGet]
    rw [if_pos (show s < e + 1 by omega), if_pos (show s < e by omega), hidx, hval]
    by_cases h1 : indices.getD s 0 = i
    · rw [if_pos h1, if_pos h1]
    · rw [if_neg h1, if_neg h1]
      by_cases h2 : indices.getD s 0 > i
      · rw [if_pos h2, if_pos h2]
      · rw [if_neg h2, if_neg h2]
        exact scanGet_insert_ne indices values i i0 v (s + 1) e k0 hne hsk he
          hlen hlenv (fun t ht1 ht2 => hbefore t (by omega) ht2) hafter
  · have hsk0 : s = k0 := by omega
    subst hsk0
    have hidx : (indices.insertIdx s i0).getD s 0 = i0 :=
      getD_insertIdx_self _ _ _ _ hlen
    have hval : (values.insertIdx s v).getD s 0 = v :=
      getD_insertIdx_self _ _ _ _ hlenv
    conv_lhs => rw [scanGet]
    rw [if_pos (show s < e + 1 by omega), hidx, if_neg hne]
    by_cases hio : i0 > i
    · rw [if_pos hio]
      conv_rhs => rw [scanGet]
      by_cases hse : s < e
      · have hgt : indices.getD s 0 > i := lt_trans hio (hafter hse)
        rw [if_pos hse, if_neg (by omega), if_pos hgt]
      · rw [if_neg hse]
    · rw [if_neg hio]
      have hrec := scanGet_shift (indices.insertIdx s i0) indices
        (values.insertIdx s v) values i 1 s e
        (fun t ht1 ht2 => by
          rw [getD_insertIdx_gt _ _ _ _ _ (by omega)]
          simp)
        (fun t ht1 ht2 => by
          rw [getD_insertIdx_gt _ _ _ _ _ (by omega)]
          simp)
      exact hrec
termination_by k0 - s

/-- The normalized coordinates of an in-bounds position are below the
minor and major dimensions. -/
theorem normPos_lt (m : Compressed) (i j : Nat) (hi : i < m.rows) (hj : j < m.columns) :
    (normPos m.variant i j).1 < m.minorDim ∧ (normPos m.variant i j).2 < m.majorDim := by
  cases h : m.variant <;>
    simp [normPos, Compressed.minorDim, Compressed.majorDim, h, hi, hj]

/-- Unfolding of `set` through the scan. -/
theorem set_unfold (m : Compressed) (i j : Nat) (v : Int) :
    m.set i j v =
      if (scanFind m.indices (normPos m.variant i j).1
          (m.offsets.getD (normPos m.variant i j).2 0)
          (m.offsets.getD ((normPos m.variant i j).2 + 1) 0)).2 then
        { m with
          values := m.values.set (scanFind m.indices (normPos m.variant i j).1
            (m.offsets.getD (normPos m.variant i j).2 0)
            (m.offsets.getD ((normPos m.variant i j).2 + 1) 0)).1 v }
      else
        { m with
          nonzeros := m.nonzeros + 1,
          values := m.values.insertIdx (scanFind m.indices (normPos m.variant i j).1
            (m.offsets.getD (normPos m.variant i j).2 0)
            (m.offsets.getD ((normPos m.variant i j).2 + 1) 0)).1 v,
          indices := m.indices.insertIdx (scanFind m.indices (normPos m.variant i j).1
            (m.offsets.getD (normPos m.variant i j).2 0)
            (m.offsets.getD ((normPos m.variant i j).2 + 1) 0)).1
            (normPos m.variant i j).1,
          offsets := m.offsets.take ((normPos m.variant i j).2 + 1) ++
            (m.offsets.drop ((normPos m.variant i j).2 + 1)).map (fun x => x + 1) } := rfl

/-- Overwriting one stored value preserves the representation invariant. -/
theorem partsInv_set_value {values : List Int} {indices offsets : List Nat}
    {n maj mino : Nat} (hp : PartsInv values indices offsets n maj mino)
    (k : Nat) (v : Int) : PartsInv (values.set k v) indices offsets n maj mino := by
  refine ⟨?_, hp.indices_len, hp.offsets_len, hp.offsets_zero, hp.offsets_mono,
    hp.offsets_last, hp.sorted, hp.inRange⟩
  rw [List.length_set]
  exact hp.values_len

/-- Inserting a fresh entry at the position found by the scan of `set`
preserves the representation invariant, with the stored-entry count grown
by one and the offsets after the affected group shifted up by one. -/
theorem partsInv_insert {values : List Int} {indices offsets : List Nat}
    {n maj mino : Nat} (hp : PartsInv values indices offsets n maj mino)
    (mi ma k : Nat) (v : Int)
    (hmi : mi < mino) (hma : ma < maj)
    (hs : offsets.getD ma 0 ≤ k) (he : k ≤ offsets.getD (ma + 1) 0)
    (hbefore : ∀ t, offsets.getD ma 0 ≤ t → t < k → indices.getD t 0 < mi)
    (hafter : k < offsets.getD (ma + 1) 0 → mi < indices.getD k 0) :
    PartsInv (values.insertIdx k v) (indices.insertIdx k mi)
      (offsets.take (ma + 1) ++ (offsets.drop (ma + 1)).map (fun x => x + 1))
      (n + 1) maj mino := by
  have hoL : offsets.length = maj + 1 := hp.offsets_len
  have hma1 : ma + 1 ≤ offsets.length := by omega
  have hken : offsets.getD (ma + 1) 0 ≤ n := hp.offsets_le_nonzeros (ma + 1) (by omega)
  have hkn : k ≤ n := le_trans he hken
  have hvl : values.length = n := hp.values_len
  have hil : indices.length = n := hp.indices_len
  have hgd : ∀ t, (offsets.take (ma + 1) ++ (offsets.drop (ma + 1)).map
      (fun x => x + 1)).getD t 0 =
      if t < ma + 1 then offsets.getD t 0
      else if t < offsets.length then offsets.getD t 0 + 1 else 0 :=
    fun t => getD_shiftTail offsets ma t (fun x => x + 1) hma1
  refine ⟨?_, ?_, ?_, ?_, ?_, ?_, ?_, ?_⟩
  · rw [List.length_insertIdx k values (by omega)]; omega
  · rw [List.length_insertIdx k indices (by omega)]; omega
  · rw [length_shiftTail offsets ma (fun x => x + 1) hma1]; exact hoL
  · rw [hgd 0, if_pos (by omega)]; exact hp.offsets_zero
  · intro t ht
    have hm := hp.offsets_mono t ht
    by_cases h1 : t + 1 < ma + 1
    · have e1 : (offsets.take (ma + 1) ++ (offsets.drop (ma + 1)).map
          (fun x => x + 1)).getD t 0 = offsets.getD t 0 := by
        rw [hgd t, if_pos (by omega)]
      have e2 : (offsets.take (ma + 1) ++ (offsets.drop (ma + 1)).map
          (fun x => x + 1)).getD (t + 1) 0 = offsets.getD (t + 1) 0 := by
        rw [hgd (t + 1), if_pos h1]
      rw [e1, e2]; exact hm
    · have e2 : (offsets.take (ma + 1) ++ (offsets.drop (ma + 1)).map
          (fun x => x + 1)).getD (t + 1) 0 = offsets.getD (t + 1) 0 + 1 := by
        rw [hgd (t + 1), if_neg h1, if_pos (by omega)]
      by_cases h2 : t < ma + 1
      · have e1 : (offsets.take (ma + 1) ++ (offsets.drop (ma + 1)).map
            (fun x => x + 1)).getD t 0 = offsets.getD t 0 := by
          rw [hgd t, if_pos h2]
        rw [e1, e2]; omega
      · have e1 : (offsets.take (ma + 1) ++ (offsets.drop (ma + 1)).map
            (fun x => x + 1)).getD t 0 = offsets.getD t 0 + 1 := by
          rw [hgd t, if_neg h2, if_pos (by omega)]
        rw [e1, e2]; omega
  · rw [hgd maj, if_neg (by omega), if_pos (by omega), hp.offsets_last]
  · intro g t hg hgt hgt1
    rw [hgd g] at hgt
    rw [hgd (g + 1)] at hgt1
    rcases Nat.lt_trichotomy g ma with hcas | hcas | hcas
    · rw [if_pos (by omega)] at hgt
      rw [if_pos (by omega)] at hgt1
      have hend : offsets.getD (g + 1) 0 ≤ k :=
        le_trans (hp.offsets_le (g + 1) ma (by omega) (by omega)) hs
      rw [getD_insertIdx_lt indices k t mi 0 (by omega),
        getD_insertIdx_lt indices k (t + 1) mi 0 (by omega)]
      exact hp.sorted g t hg hgt hgt1
    · subst hcas
      rw [if_pos (by omega)] at hgt
      rw [if_neg (by omega), if_pos (by omega)] at hgt1
      rcases Nat.lt_trichotomy (t + 1) k with hc | hc | hc
      · rw [getD_insertIdx_lt indices k t mi 0 (by omega),
          getD_insertIdx_lt indices k (t + 1) mi 0 hc]
        exact hp.sorted g t hg hgt (by omega)
      · rw [getD_insertIdx_lt indices k t mi 0 (by omega), hc,
          getD_insertIdx_self indices k mi 0 (by omega)]
        exact hbefore t hgt (by omega)
      · rcases Nat.lt_trichotomy t k with hd | hd | hd
        · omega
        · rw [hd, getD_insertIdx_self indices k mi 0 (by omega),
            getD_insertIdx_gt indices k (k + 1) mi 0 (by omega)]
          have hsub : k + 1 - 1 = k := by omega
          rw [hsub]
          exact hafter (by omega)
        · rw [getD_insertIdx_gt indices k t mi 0 hd,
            getD_insertIdx_gt indices k (t + 1) mi 0 (by omega)]
          obtain ⟨u, rfl⟩ : ∃ u, t = u + 1 := ⟨t - 1, by omega⟩
          have h1 : u + 1 - 1 = u := by omega
          have h2 : u + 1 + 1 - 1 = u + 1 := by omega
          rw [h1, h2]
          exact hp.sorted g u hg (by omega) (by omega)
    · rw [if_neg (by omega), if_pos (by omega)] at hgt
      rw [if_neg (by omega), if_pos (by omega)] at hgt1
      have hstart : k ≤ offsets.getD g 0 :=
        le_trans he (hp.offsets_le (ma + 1) g (by omega) (by omega))
      rw [getD_insertIdx_gt indices k t mi 0 (by omega),
        getD_insertIdx_gt indices k (t + 1) mi 0 (by omega)]
      obtain ⟨u, rfl⟩ : ∃ u, t = u + 1 := ⟨t - 1, by omega⟩
      have h1 : u + 1 - 1 = u := by omega
      have h2 : u + 1 + 1 - 1 = u + 1 := by omega
      rw [h1, h2]
      exact hp.sorted g u hg (by omega) (by omega)
  · intro t ht
    rcases Nat.lt_trichotomy t k with hc | hc | hc
    · rw [getD_insertIdx_lt indices k t mi 0 hc]
      exact hp.inRange t (by omega)
    · rw [hc, getD_insertIdx_self indices k mi 0 (by omega)]
      exact hmi
    · rw [getD_insertIdx_gt indices k t mi 0 hc]
      exact hp.inRange (t - 1) (by omega)

theorem set_rows (m : Compressed) (i j : Nat) (v : Int) :
    (m.set i j v).rows = m.rows := by
  rw [set_unfold]; split <;> rfl

theorem set_columns (m : Compressed) (i j : Nat) (v : Int) :
    (m.set i j v).columns = m.columns := by
  rw [set_unfold]; split <;> rfl

theorem set_variant (m : Compressed) (i j : Nat) (v : Int) :
    (m.set i j v).variant = m.variant := by
  rw [set_unfold]; split <;> rfl

theorem set_majorDim (m : Compressed) (i j : Nat) (v : Int) :
    (m.set i j v).majorDim = m.majorDim := by
  unfold Compressed.majorDim
  rw [set_variant]
  cases m.variant
  · exact set_columns m i j v
  · exact set_rows m i j v

theorem set_minorDim (m : Compressed) (i j : Nat) (v : Int) :
    (m.set i j v).minorDim = m.minorDim := by
  unfold Compressed.minorDim
  rw [set_variant]
  cases m.variant
  · exact set_rows m i j v
  · exact set_columns m i j v

/-- An in-bounds `set` preserves the representation invariant. -/
theorem invariant_set (m : Compressed) (hm : Invariant m) (i j : Nat) (v : Int)
    (hi : i < m.rows) (hj : j < m.columns) : Invariant (m.set i j v) := by
  obtain ⟨hmi, hma⟩ := normPos_lt m i j hi hj
  have hse : m.offsets.getD (normPos m.variant i j).2 0 ≤
      m.offsets.getD ((normPos m.variant i j).2 + 1) 0 :=
    hm.offsets_mono (normPos m.variant i j).2 hma
  obtain ⟨f1, f2, f3, f4, f5⟩ := scanFind_spec m.indices (normPos m.variant i j).1
    (m.offsets.getD (normPos m.variant i j).2 0)
    (m.offsets.getD ((normPos m.variant i j).2 + 1) 0) hse
  rw [set_unfold]
  split
  · exact partsInv_set_value hm _ v
  · next hf =>
    have hff : (scanFind m.indices (normPos m.variant i j).1
        (m.offsets.getD (normPos m.variant i j).2 0)
        (m.offsets.getD ((normPos m.variant i j).2 + 1) 0)).2 = false := by
      revert hf
      cases (scanFind m.indices (normPos m.variant i j).1
        (m.offsets.getD (normPos m.variant i j).2 0)
        (m.offsets.getD ((normPos m.variant i j).2 + 1) 0)).2 <;> simp
    exact partsInv_insert hm (normPos m.variant i j).1 (normPos m.variant i j).2 _ v
      hmi hma f1 f2 f3
      (fun hke => (f5 hff).resolve_left (by omega))

/-- Write-read at the same coordinate: `set` then `get` returns the
written value. -/
theorem get_set_same (m : Compressed) (hm : Invariant m) (i j : Nat) (v : Int)
    (hi : i < m.rows) (hj : j < m.columns) : (m.set i j v).get i j = v := by
  obtain ⟨hmi, hma⟩ := normPos_lt m i j hi hj
  have hvl := hm.values_len
  have hil := hm.indices_len
  have hol := hm.offsets_len
  set p := normPos m.variant i j with hpdef
  have hse : m.offsets.getD p.2 0 ≤ m.offsets.getD (p.2 + 1) 0 :=
    hm.offsets_mono p.2 hma
  have hen : m.offsets.getD (p.2 + 1) 0 ≤ m.nonzeros :=
    hm.offsets_le_nonzeros (p.2 + 1) (by omega)
  obtain ⟨f1, f2, f3, f4, f5⟩ := scanFind_spec m.indices p.1
    (m.offsets.getD p.2 0) (m.offsets.getD (p.2 + 1) 0) hse
  rw [set_unfold]
  rw [← hpdef]
  set r := scanFind m.indices p.1 (m.offsets.getD p.2 0)
    (m.offsets.getD (p.2 + 1) 0) with hrdef
  split
  · next hf =>
    obtain ⟨hk, hidx⟩ := f4 hf
    show scanGet m.indices (m.values.set r.1 v) p.1
      (m.offsets.getD p.2 0) (m.offsets.getD (p.2 + 1) 0) = v
    rw [scanGet_eq_of_found m.indices (m.values.set r.1 v) p.1 _ _ r.1
      (fun t1 t2 h1 h2 h3 => hm.sorted_lt p.2 t1 t2 hma h1 h2 h3) f1 hk hidx]
    exact getD_set_self m.values r.1 v 0 (by omega)
  · next hf =>
    have hff : r.2 = false := by
      revert hf; cases r.2 <;> simp
    have hafter : r.1 < m.offsets.getD (p.2 + 1) 0 → p.1 < m.indices.getD r.1 0 :=
      fun hke => (f5 hff).resolve_left (by omega)
    have hp' := partsInv_insert hm p.1 p.2 r.1 v hmi hma f1 f2 f3 hafter
    unfold Compressed.get
    dsimp only
    rw [← hpdef]
    have e_s : (m.offsets.take (p.2 + 1) ++ (m.offsets.drop (p.2 + 1)).map
        (fun x => x + 1)).getD p.2 0 = m.offsets.getD p.2 0 := by
      rw [getD_shiftTail m.offsets p.2 p.2 _ (by omega), if_pos (by omega)]
    have e_e : (m.offsets.take (p.2 + 1) ++ (m.offsets.drop (p.2 + 1)).map
        (fun x => x + 1)).getD (p.2 + 1) 0 = m.offsets.getD (p.2 + 1) 0 + 1 := by
      rw [getD_shiftTail m.offsets p.2 (p.2 + 1) _ (by omega), if_neg (by omega),
        if_pos (by omega)]
    rw [e_s, e_e]
    have hidx : (m.indices.insertIdx r.1 p.1).getD r.1 0 = p.1 :=
      getD_insertIdx_self m.indices r.1 p.1 0 (by omega)
    rw [scanGet_eq_of_found (m.indices.insertIdx r.1 p.1)
      (m.values.insertIdx r.1 v) p.1 _ _ r.1
      (fun t1 t2 h1 h2 h3 => by
        have := hp'.sorted_lt p.2 t1 t2 hma (by rw [e_s]; exact h1) h2
          (by rw [e_e]; exact h3)
        exact this)
      f1 (by omega) hidx]
    exact getD_insertIdx_self m.values r.1 v 0 (by omega)

/-- Writing one coordinate does not change the value read at any other
in-bounds coordinate. -/
theorem get_set_ne (m : Compressed) (hm : Invariant m) (i j i2 j2 : Nat) (v : Int)
    (hi : i < m.rows) (hj : j < m.columns) (hi2 : i2 < m.rows) (hj2 : j2 < m.columns)
    (hne : ¬(i2 = i ∧ j2 = j)) :
    (m.set i j v).get i2 j2 = m.get i2 j2 := by
  obtain ⟨hmi, hma⟩ := normPos_lt m i j hi hj
  obtain ⟨hmi2, hma2⟩ := normPos_lt m i2 j2 hi2 hj2
  have hqp : ¬((normPos m.variant i2 j2).1 = (normPos m.variant i j).1 ∧
      (normPos m.variant i2 j2).2 = (normPos m.variant i j).2) := by
    cases hv : m.variant
    · simpa [normPos, hv] using hne
    · simp only [normPos, hv]
      tauto
  have hvl := hm.values_len
  have hil := hm.indices_len
  have hol := hm.offsets_len
  set p := normPos m.variant i j with hpdef
  set q := normPos m.variant i2 j2 with hqdef
  have hse : m.offsets.getD p.2 0 ≤ m.offsets.getD (p.2 + 1) 0 :=
    hm.offsets_mono p.2 hma
  have hen : m.offsets.getD (p.2 + 1) 0 ≤ m.nonzeros :=
    hm.offsets_le_nonzeros (p.2 + 1) (by omega)
  obtain ⟨f1, f2, f3, f4, f5⟩ := scanFind_spec m.indices p.1
    (m.offsets.getD p.2 0) (m.offsets.getD (p.2 + 1) 0) hse
  rw [set_unfold]
  rw [← hpdef]
  set r := scanFind m.indices p.1 (m.offsets.getD p.2 0)
    (m.offsets.getD (p.2 + 1) 0) with hrdef
  split
  · next hf =>
    obtain ⟨hk, hidx⟩ := f4 hf
    unfold Compressed.get
    dsimp only
    rw [← hqdef]
    by_cases hq1 : q.1 = p.1
    · have hq2 : q.2 ≠ p.2 := fun hc => hqp ⟨hq1, hc⟩
      apply scanGet_congr _ _ _ _ _ _ _ (fun t _ _ => rfl)
      intro t ht1 ht2
      rcases lt_or_gt_of_ne hq2 with hlt | hgt
      · have hb : m.offsets.getD (q.2 + 1) 0 ≤ m.offsets.getD p.2 0 :=
          hm.offsets_le (q.2 + 1) p.2 (by omega) (by omega)
        exact getD_set_ne m.values r.1 t v 0 (by omega)
      · have hb : m.offsets.getD (p.2 + 1) 0 ≤ m.offsets.getD q.2 0 :=
          hm.offsets_le (p.2 + 1) q.2 (by omega) (by omega)
        exact getD_set_ne m.values r.1 t v 0 (by omega)
    · exact scanGet_set_value_of_ne_idx m.indices m.values q.1 _ _ r.1 v
        (by rw [hidx]; exact fun hc => hq1 hc.symm)
  · next hf =>
    have hff : r.2 = false := by
      revert hf; cases r.2 <;> simp
    have hafter : r.1 < m.offsets.getD (p.2 + 1) 0 → p.1 < m.indices.getD r.1 0 :=
      fun hke => (f5 hff).resolve_left (by omega)
    unfold Compressed.get
    dsimp only
    rw [← hqdef]
    have hgd : ∀ t, (m.offsets.take (p.2 + 1) ++ (m.offsets.drop (p.2 + 1)).map
        (fun x => x + 1)).getD t 0 =
        if t < p.2 + 1 then m.offsets.getD t 0
        else if t < m.offsets.length then m.offsets.getD t 0 + 1 else 0 :=
      fun t => getD_shiftTail m.offsets p.2 t (fun x => x + 1) (by omega)
    rcases Nat.lt_trichotomy q.2 p.2 with hc | hc | hc
    · have e_s : (m.offsets.take (p.2 + 1) ++ (m.offsets.drop (p.2 + 1)).map
          (fun x => x + 1)).getD q.2 0 = m.offsets.getD q.2 0 := by
        rw [hgd q.2, if_pos (by omega)]
      have e_e : (m.offsets.take (p.2 + 1) ++ (m.offsets.drop (p.2 + 1)).map
          (fun x => x + 1)).getD (q.2 + 1) 0 = m.offsets.getD (q.2 + 1) 0 := by
        rw [hgd (q.2 + 1), if_pos (by omega)]
      rw [e_s, e_e]
      have hb : m.offsets.getD (q.2 + 1) 0 ≤ m.offsets.getD p.2 0 :=
        hm.offsets_le (q.2 + 1) p.2 (by omega) (by omega)
      apply scanGet_congr
      · intro t ht1 ht2
        exact getD_insertIdx_lt m.indices r.1 t p.1 0 (by omega)
      · intro t ht1 ht2
        exact getD_insertIdx_lt m.values r.1 t v 0 (by omega)
    · have hq1 : q.1 ≠ p.1 := fun hx => hqp ⟨hx, hc⟩
      rw [hc]
      have e_s : (m.offsets.take (p.2 + 1) ++ (m.offsets.drop (p.2 + 1)).map
          (fun x => x + 1)).getD p.2 0 = m.offsets.getD p.2 0 := by
        rw [hgd p.2, if_pos (by omega)]
      have e_e : (m.offsets.take (p.2 + 1) ++ (m.offsets.drop (p.2 + 1)).map
          (fun x => x + 1)).getD (p.2 + 1) 0 = m.offsets.getD (p.2 + 1) 0 + 1 := by
        rw [hgd (p.2 + 1), if_neg (by omega), if_pos (by omega)]
      rw [e_s, e_e]
      exact scanGet_insert_ne m.indices m.values q.1 p.1 v
        (m.offsets.getD p.2 0) (m.offsets.getD (p.2 + 1) 0) r.1
        (fun hx => hq1 hx.symm) f1 f2 (by omega) (by omega) f3 hafter
    · have e_s : (m.offsets.take (p.2 + 1) ++ (m.offsets.drop (p.2 + 1)).map
          (fun x => x + 1)).getD q.2 0 = m.offsets.getD q.2 0 + 1 := by
        rw [hgd q.2, if_neg (by omega), if_pos (by omega)]
      have e_e : (m.offsets.take (p.2 + 1) ++ (m.offsets.drop (p.2 + 1)).map
          (fun x => x + 1)).getD (q.2 + 1) 0 = m.offsets.getD (q.2 + 1) 0 + 1 := by
        rw [hgd (q.2 + 1), if_neg (by omega), if_pos (by omega)]
      rw [e_s, e_e]
      have hb : m.offsets.getD (p.2 + 1) 0 ≤ m.offsets.getD q.2 0 :=
        hm.offsets_le (p.2 + 1) q.2 (by omega) (by omega)
      apply scanGet_shift
      · intro t ht1 ht2
        rw [getD_insertIdx_gt m.indices r.1 (t + 1) p.1 0 (by omega)]
        simp
      · intro t ht1 ht2
        rw [getD_insertIdx_gt m.values r.1 (t + 1) v 0 (by omega)]
        simp

/-- Characterization of `stored`: some position of the coordinate's major
group carries its minor index. -/
theorem stored_eq_true_iff (m : Compressed) (i j : Nat) :
    m.stored i j = true ↔ ∃ k, k < m.nonzeros ∧
      m.offsets.getD (normPos m.variant i j).2 0 ≤ k ∧
      k < m.offsets.getD ((normPos m.variant i j).2 + 1) 0 ∧
      m.indices.getD k 0 = (normPos m.variant i j).1 := by
  unfold Compressed.stored
  simp only [List.any_eq_true, List.mem_range, Bool.and_eq_true, decide_eq_true_eq]
  constructor
  · rintro ⟨k, hk, ⟨h1, h2⟩, h3⟩
    exact ⟨k, hk, h1, h2, h3⟩
  · rintro ⟨k, hk, h1, h2, h3⟩
    exact ⟨k, hk, ⟨h1, h2⟩, h3⟩

/-- `get` at an in-bounds coordinate with no stored entry returns zero. -/
theorem get_eq_zero_of_not_stored (m : Compressed) (hm : Invariant m) (i j : Nat)
    (hi : i < m.rows) (hj : j < m.columns) (hst : m.stored i j = false) :
    m.get i j = 0 := by
  obtain ⟨hmi, hma⟩ := normPos_lt m i j hi hj
  have hen : m.offsets.getD ((normPos m.variant i j).2 + 1) 0 ≤ m.nonzeros :=
    hm.offsets_le_nonzeros ((normPos m.variant i j).2 + 1) (by omega)
  apply scanGet_eq_zero_of_none
  intro t ht1 ht2 hcon
  have : m.stored i j = true :=
    (stored_eq_true_iff m i j).mpr ⟨t, by omega, ht1, ht2, hcon⟩
  rw [hst] at this
  exact Bool.false_ne_true this

/-- `set` at an in-bounds coordinate with no stored entry takes the
insertion branch: the stored-entry count grows by exactly one. -/
theorem nonzeros_set_of_not_stored (m : Compressed) (hm : Invariant m) (i j : Nat)
    (v : Int) (hi : i < m.rows) (hj : j < m.columns) (hst : m.stored i j = false) :
    (m.set i j v).nonzeros = m.nonzeros + 1 := by
  obtain ⟨hmi, hma⟩ := normPos_lt m i j hi hj
  have hil := hm.indices_len
  set p := normPos m.variant i j with hpdef
  have hse : m.offsets.getD p.2 0 ≤ m.offsets.getD (p.2 + 1) 0 :=
    hm.offsets_mono p.2 hma
  have hen : m.offsets.getD (p.2 + 1) 0 ≤ m.nonzeros :=
    hm.offsets_le_nonzeros (p.2 + 1) (by omega)
  obtain ⟨f1, f2, f3, f4, f5⟩ := scanFind_spec m.indices p.1
    (m.offsets.getD p.2 0) (m.offsets.getD (p.2 + 1) 0) hse
  rw [set_unfold]
  rw [← hpdef]
  set r := scanFind m.indices p.1 (m.offsets.getD p.2 0)
    (m.offsets.getD (p.2 + 1) 0) with hrdef
  have hff : r.2 = false := by
    cases hb : r.2
    · rfl
    · obtain ⟨hk, hidx⟩ := f4 hb
      have : m.stored i j = true :=
        (stored_eq_true_iff m i j).mpr ⟨r.1, by omega, f1, hk, hidx⟩
      rw [hst] at this
      exact absurd this Bool.false_ne_true
  rw [if_neg (by rw [hff]; exact Bool.false_ne_true)]

/-- The zero matrix satisfies the representation invariant. -/
theorem invariant_new (rows columns : Nat) (variant : Variant) :
    Invariant (Compressed.new rows columns variant) := by
  have hz : ∀ n t : Nat, (List.replicate n (0 : Nat)).getD t 0 = 0 := fun n t => by
    by_cases h : t < n
    · exact getD_replicate_of_lt n t 0 0 h
    · exact List.getD_eq_default _ _ (by rw [List.length_replicate]; omega)
  cases variant <;>
  · refine ⟨rfl, rfl, ?_, ?_, ?_, ?_, ?_, ?_⟩ <;>
      dsimp only [Compressed.new, Compressed.majorDim, Compressed.minorDim] <;>
      simp [hz]

/-- Every read of the zero matrix returns zero. -/
theorem get_new (rows columns : Nat) (variant : Variant) (i j : Nat) :
    (Compressed.new rows columns variant).get i j = 0 := by
  have hz : ∀ n t : Nat, (List.replicate n (0 : Nat)).getD t 0 = 0 := fun n t => by
    by_cases h : t < n
    · exact getD_replicate_of_lt n t 0 0 h
    · exact List.getD_eq_default _ _ (by rw [List.length_replicate]; omega)
  apply scanGet_eq_zero_of_none
  intro t ht1 ht2
  exfalso
  cases hv : variant <;>
  · subst hv
    simp only [Compressed.new, normPos, hz] at ht2
    omega

/-- The dense-to-compressed loop preserves the invariant and the
dimensions and variant of the accumulator. -/
theorem fromConvLoop_invariant (vals : List Int) : ∀ (k0 : Nat) (macc : Compressed),
    Invariant macc → k0 + vals.length ≤ macc.rows * macc.columns →
    Invariant (fromConvLoop macc.rows k0 vals macc) ∧
    (fromConvLoop macc.rows k0 vals macc).rows = macc.rows ∧
    (fromConvLoop macc.rows k0 vals macc).columns = macc.columns ∧
    (fromConvLoop macc.rows k0 vals macc).variant = macc.variant := by
  induction vals with
  | nil =>
    intro k0 macc hm _
    exact ⟨hm, rfl, rfl, rfl⟩
  | cons v rest ih =>
    intro k0 macc hm hlen
    have hlen' : k0 + (rest.length + 1) ≤ macc.rows * macc.columns := by
      simpa using hlen
    have hRpos : 0 < macc.rows := by
      rcases Nat.eq_zero_or_pos macc.rows with h | h
      · rw [h, Nat.zero_mul] at hlen'
        omega
      · exact h
    have hCpos : 0 < macc.columns := by
      rcases Nat.eq_zero_or_pos macc.columns with h | h
      · rw [h, Nat.mul_zero] at hlen'
        omega
      · exact h
    have hinv' : Invariant (if v = 0 then macc
        else macc.set (k0 % macc.rows) (k0 / macc.rows) v) := by
      by_cases hv0 : v = 0
      · rw [if_pos hv0]; exact hm
      · rw [if_neg hv0]
        exact invariant_set macc hm _ _ v (Nat.mod_lt _ hRpos)
          (Nat.div_lt_of_lt_mul (by omega))
    have hrows' : (if v = 0 then macc
        else macc.set (k0 % macc.rows) (k0 / macc.rows) v).rows = macc.rows := by
      by_cases hv0 : v = 0
      · rw [if_pos hv0]
      · rw [if_neg hv0]; exact set_rows macc _ _ v
    have hcols' : (if v = 0 then macc
        else macc.set (k0 % macc.rows) (k0 / macc.rows) v).columns = macc.columns := by
      by_cases hv0 : v = 0
      · rw [if_pos hv0]
      · rw [if_neg hv0]; exact set_columns macc _ _ v
    have hvar' : (if v = 0 then macc
        else macc.set (k0 % macc.rows) (k0 / macc.rows) v).variant = macc.variant := by
      by_cases hv0 : v = 0
      · rw [if_pos hv0]
      · rw [if_neg hv0]; exact set_variant macc _ _ v
    have hstep := ih (k0 + 1)
      (if v = 0 then macc else macc.set (k0 % macc.rows) (k0 / macc.rows) v)
      hinv' (by rw [hrows', hcols']; omega)
    rw [hrows'] at hstep
    simp only [fromConvLoop]
    refine ⟨hstep.1, ?_, ?_, ?_⟩
    · rw [hstep.2.1]
    · rw [hstep.2.2.1, hcols']
    · rw [hstep.2.2.2, hvar']

/-- The value read from the result of the dense-to-compressed loop: a
coordinate whose flat position falls in the processed range reads the
dense value (when that value is nonzero; a zero dense value leaves the
accumulator untouched there), and any other coordinate reads the
accumulator. -/
theorem fromConvLoop_get (vals : List Int) : ∀ (k0 : Nat) (macc : Compressed),
    Invariant macc → k0 + vals.length ≤ macc.rows * macc.columns →
    ∀ i2 j2, i2 < macc.rows → j2 < macc.columns →
    (fromConvLoop macc.rows k0 vals macc).get i2 j2 =
      if k0 ≤ j2 * macc.rows + i2 ∧ j2 * macc.rows + i2 < k0 + vals.length ∧
          vals.getD (j2 * macc.rows + i2 - k0) 0 ≠ 0 then
        vals.getD (j2 * macc.rows + i2 - k0) 0
      else macc.get i2 j2 := by
  induction vals with
  | nil =>
    intro k0 macc hm _ i2 j2 hi2 hj2
    rw [if_neg (by
      rintro ⟨h1, h2, _⟩
      simp only [List.length_nil] at h2
      omega)]
    rfl
  | cons v rest ih =>
    intro k0 macc hm hlen i2 j2 hi2 hj2
    have hlen' : k0 + (rest.length + 1) ≤ macc.rows * macc.columns := by
      simpa using hlen
    have hRpos : 0 < macc.rows := by
      rcases Nat.eq_zero_or_pos macc.rows with h | h
      · rw [h, Nat.zero_mul] at hlen'
        omega
      · exact h
    have hki : k0 % macc.rows < macc.rows := Nat.mod_lt _ hRpos
    have hkj : k0 / macc.rows < macc.columns := Nat.div_lt_of_lt_mul (by omega)
    have hinv' : Invariant (if v = 0 then macc
        else macc.set (k0 % macc.rows) (k0 / macc.rows) v) := by
      by_cases hv0 : v = 0
      · rw [if_pos hv0]; exact hm
      · rw [if_neg hv0]
        exact invariant_set macc hm _ _ v hki hkj
    have hrows' : (if v = 0 then macc
        else macc.set (k0 % macc.rows) (k0 / macc.rows) v).rows = macc.rows := by
      by_cases hv0 : v = 0
      · rw [if_pos hv0]
      · rw [if_neg hv0]; exact set_rows macc _ _ v
    have hcols' : (if v = 0 then macc
        else macc.set (k0 % macc.rows) (k0 / macc.rows) v).columns = macc.columns := by
      by_cases hv0 : v = 0
      · rw [if_pos hv0]
      · rw [if_neg hv0]; exact set_columns macc _ _ v
    have hstep := ih (k0 + 1)
      (if v = 0 then macc else macc.set (k0 % macc.rows) (k0 / macc.rows) v)
      hinv' (by rw [hrows', hcols']; omega) i2 j2
      (by rw [hrows']; exact hi2) (by rw [hcols']; exact hj2)
    rw [hrows'] at hstep
    simp only [fromConvLoop]
    rw [hstep]
    rcases Nat.lt_trichotomy (j2 * macc.rows + i2) k0 with hpos | hpos | hpos
    · -- position already before the processed range: both sides give the
      -- accumulator, and the step coordinate differs from (i2, j2)
      rw [if_neg (show ¬(k0 + 1 ≤ j2 * macc.rows + i2 ∧
          j2 * macc.rows + i2 < k0 + 1 + rest.length ∧
          rest.getD (j2 * macc.rows + i2 - (k0 + 1)) 0 ≠ 0) by
            rintro ⟨h1, h2, h3⟩; omega)]
      rw [if_neg (show ¬(k0 ≤ j2 * macc.rows + i2 ∧
          j2 * macc.rows + i2 < k0 + (v :: rest).length ∧
          (v :: rest).getD (j2 * macc.rows + i2 - k0) 0 ≠ 0) by
            rintro ⟨h1, h2, h3⟩; omega)]
      by_cases hv0 : v = 0
      · rw [if_pos hv0]
      · rw [if_neg hv0]
        apply get_set_ne macc hm _ _ _ _ v hki hkj hi2 hj2
        rintro ⟨hie, hje⟩
        have hdm := Nat.div_add_mod k0 macc.rows
        subst hie
        subst hje
        rw [Nat.mul_comm (k0 / macc.rows) macc.rows] at hpos
        omega
    · -- the position processed at this step
      have hsub : j2 * macc.rows + i2 - k0 = 0 := by omega
      rw [if_neg (show ¬(k0 + 1 ≤ j2 * macc.rows + i2 ∧
          j2 * macc.rows + i2 < k0 + 1 + rest.length ∧
          rest.getD (j2 * macc.rows + i2 - (k0 + 1)) 0 ≠ 0) by
            rintro ⟨h1, h2, h3⟩; omega), hsub]
      have hmod : (j2 * macc.rows + i2) % macc.rows = i2 := by
        rw [Nat.mul_comm j2 macc.rows, Nat.mul_add_mod, Nat.mod_eq_of_lt hi2]
      have hdiv : (j2 * macc.rows + i2) / macc.rows = j2 := by
        rw [Nat.mul_comm j2 macc.rows, Nat.mul_add_div hRpos,
          Nat.div_eq_of_lt hi2, Nat.add_zero]
      have hie : i2 = k0 % macc.rows := by rw [← hpos, hmod]
      have hje : j2 = k0 / macc.rows := by rw [← hpos, hdiv]
      by_cases hv0 : v = 0
      · rw [if_pos hv0]
        rw [if_neg (show ¬(k0 ≤ j2 * macc.rows + i2 ∧
            j2 * macc.rows + i2 < k0 + (v :: rest).length ∧
            (v :: rest).getD 0 0 ≠ 0) by
              rintro ⟨_, _, hcon⟩
              exact hcon (by simpa using hv0))]
      · rw [if_neg hv0, if_pos (show k0 ≤ j2 * macc.rows + i2 ∧
            j2 * macc.rows + i2 < k0 + (v :: rest).length ∧
            (v :: rest).getD 0 0 ≠ 0 from
              ⟨by omega, by simp only [List.length_cons]; omega, by simpa using hv0⟩)]
        show (macc.set (k0 % macc.rows) (k0 / macc.rows) v).get i2 j2 = v
        rw [hie, hje]
        exact get_set_same macc hm _ _ v hki hkj
    · -- position after this step: the tail decides, with the list index
      -- shifted by one
      have hsub : j2 * macc.rows + i2 - k0 = (j2 * macc.rows + i2 - (k0 + 1)) + 1 := by
        omega
      have hgd : (v :: rest).getD (j2 * macc.rows + i2 - k0) 0 =
          rest.getD (j2 * macc.rows + i2 - (k0 + 1)) 0 := by
        rw [hsub]
        rfl
      by_cases hin : j2 * macc.rows + i2 < k0 + 1 + rest.length ∧
          rest.getD (j2 * macc.rows + i2 - (k0 + 1)) 0 ≠ 0
      · rw [if_pos (show k0 + 1 ≤ j2 * macc.rows + i2 ∧
            j2 * macc.rows + i2 < k0 + 1 + rest.length ∧
            rest.getD (j2 * macc.rows + i2 - (k0 + 1)) 0 ≠ 0 from
              ⟨by omega, hin.1, hin.2⟩)]
        rw [if_pos (show k0 ≤ j2 * macc.rows + i2 ∧
            j2 * macc.rows + i2 < k0 + (v :: rest).length ∧
            (v :: rest).getD (j2 * macc.rows + i2 - k0) 0 ≠ 0 from
              ⟨by omega, by simp only [List.length_cons]; omega,
                by rw [hgd]; exact hin.2⟩)]
        rw [hgd]
      · rw [if_neg (show ¬(k0 + 1 ≤ j2 * macc.rows + i2 ∧
            j2 * macc.rows + i2 < k0 + 1 + rest.length ∧
            rest.getD (j2 * macc.rows + i2 - (k0 + 1)) 0 ≠ 0) by
              rintro ⟨h1, h2, h3⟩
              exact hin ⟨h2, h3⟩)]
        rw [if_neg (show ¬(k0 ≤ j2 * macc.rows + i2 ∧
            j2 * macc.rows + i2 < k0 + (v :: rest).length ∧
            (v :: rest).getD (j2 * macc.rows + i2 - k0) 0 ≠ 0) by
              rintro ⟨h1, h2, h3⟩
              rw [hgd] at h3
              exact hin ⟨by simp only [List.length_cons] at h2; omega, h3⟩)]
        by_cases hv0 : v = 0
        · rw [if_pos hv0]
        · rw [if_neg hv0]
          apply get_set_ne macc hm _ _ _ _ v hki hkj hi2 hj2
          rintro ⟨hie, hje⟩
          have hdm := Nat.div_add_mod k0 macc.rows
          subst hie
          subst hje
          rw [Nat.mul_comm (k0 / macc.rows) macc.rows] at hpos
          omega

/-- `get` at a coordinate whose group carries a matching entry returns
that entry's value. -/
theorem get_eq_of_entry (m : Compressed) (hm : Invariant m) (i j k : Nat)
    (hma : (normPos m.variant i j).2 < m.majorDim)
    (hs : m.offsets.getD (normPos m.variant i j).2 0 ≤ k)
    (hk : k < m.offsets.getD ((normPos m.variant i j).2 + 1) 0)
    (hidx : m.indices.getD k 0 = (normPos m.variant i j).1) :
    m.get i j = m.values.getD k 0 :=
  scanGet_eq_of_found _ _ _ _ _ k
    (fun t1 t2 h1 h2 h3 => hm.sorted_lt _ t1 t2 hma h1 h2 h3) hs hk hidx

/-- `get` at a coordinate whose group carries no matching entry returns
zero. -/
theorem get_eq_zero_of_no_entry (m : Compressed) (i j : Nat)
    (hnone : ∀ k, m.offsets.getD (normPos m.variant i j).2 0 ≤ k →
      k < m.offsets.getD ((normPos m.variant i j).2 + 1) 0 →
      m.indices.getD k 0 ≠ (normPos m.variant i j).1) :
    m.get i j = 0 :=
  scanGet_eq_zero_of_none _ _ _ _ _ hnone

/-- Distinct groups write to distinct flat positions of the dense
buffer. -/
theorem pos_decomp_ne (rows a b ia ib : Nat) (hia : ia < rows) (hib : ib < rows)
    (hab : a ≠ b) : a * rows + ia ≠ b * rows + ib := by
  intro h
  have hRpos : 0 < rows := by omega
  have h1 : (a * rows + ia) / rows = a := by
    rw [Nat.mul_comm a rows, Nat.mul_add_div hRpos, Nat.div_eq_of_lt hia, Nat.add_zero]
  have h2 : (b * rows + ib) / rows = b := by
    rw [Nat.mul_comm b rows, Nat.mul_add_div hRpos, Nat.div_eq_of_lt hib, Nat.add_zero]
  apply hab
  rw [← h1, ← h2, h]

theorem writeColLoop_length (indices : List Nat) (values : List Int) (rows j : Nat)
    (k e : Nat) (buf : List Int) :
    (writeColLoop indices values rows j k e buf).length = buf.length := by
  rw [writeColLoop]
  by_cases hke : k < e
  · rw [if_pos hke, writeColLoop_length indices values rows j (k + 1) e _,
      List.length_set]
  · rw [if_neg hke]
termination_by e - k

/-- A position no write of the group loop targets keeps its buffer
value. -/
theorem writeColLoop_getD_miss (indices : List Nat) (values : List Int)
    (rows j q : Nat) (k e : Nat) (buf : List Int)
    (hmiss : ∀ t, k ≤ t → t < e → j * rows + indices.getD t 0 ≠ q) :
    (writeColLoop indices values rows j k e buf).getD q 0 = buf.getD q 0 := by
  rw [writeColLoop]
  by_cases hke : k < e
  · rw [if_pos hke,
      writeColLoop_getD_miss indices values rows j q (k + 1) e _
        (fun t h1 h2 => hmiss t (by omega) h2)]
    exact getD_set_ne buf _ q _ 0 (fun hc => hmiss k le_rfl hke hc.symm)
  · rw [if_neg hke]
termination_by e - k

/-- The position written at step `t0`, untouched by all later steps of
the group loop, ends with the value of entry `t0`. -/
theorem writeColLoop_getD_hit (indices : List Nat) (values : List Int)
    (rows j q : Nat) (k e : Nat) (buf : List Int) (hq : q < buf.length)
    (t0 : Nat) (hk0 : k ≤ t0) (he0 : t0 < e)
    (hpos : j * rows + indices.getD t0 0 = q)
    (hlater : ∀ t, t0 < t → t < e → j * rows + indices.getD t 0 ≠ q) :
    (writeColLoop indices values rows j k e buf).getD q 0 = values.getD t0 0 := by
  rw [writeColLoop, if_pos (by omega : k < e)]
  by_cases hkt : k = t0
  · subst hkt
    rw [hpos]
    rw [writeColLoop_getD_miss indices values rows j q (k + 1) e _
      (fun t h1 h2 => hlater t (by omega) h2)]
    exact getD_set_self buf q _ 0 hq
  · exact writeColLoop_getD_hit indices values rows j q (k + 1) e _
      (by rw [List.length_set]; exact hq) t0 (by omega) he0 hpos hlater
termination_by e - k

theorem toDenseFold_length (m : Compressed) :
    ∀ (n : Nat) (buf : List Int),
    ((List.range n).foldl (fun buf j2 => writeColLoop m.indices m.values m.rows j2
      (m.offsets.getD j2 0) (m.offsets.getD (j2 + 1) 0) buf) buf).length =
      buf.length := by
  intro n
  induction n with
  | zero => intro buf; rfl
  | succ n ih =>
    intro buf
    rw [List.range_succ, List.foldl_append, List.foldl_cons, List.foldl_nil,
      writeColLoop_length, ih]

/-- The dense fill of the first `n` columns: positions of filled columns
read the matrix, positions of unfilled columns stay zero. -/
theorem toDenseFold_getD (m : Compressed) (hm : Invariant m)
    (hvar : m.variant = Variant.column) :
    ∀ n, n ≤ m.columns → ∀ i j, i < m.rows → j < m.columns →
    ((List.range n).foldl (fun buf j2 => writeColLoop m.indices m.values m.rows j2
        (m.offsets.getD j2 0) (m.offsets.getD (j2 + 1) 0) buf)
      (List.replicate (m.rows * m.columns) (0 : Int))).getD (j * m.rows + i) 0 =
      if j < n then m.get i j else 0 := by
  have hmaj : m.majorDim = m.columns := by
    unfold Compressed.majorDim; rw [hvar]
  have hmin : m.minorDim = m.rows := by
    unfold Compressed.minorDim; rw [hvar]
  have hnp : ∀ i j : Nat, normPos m.variant i j = (i, j) := fun i j => by
    rw [hvar]; rfl
  have hz : ∀ n t : Nat, (List.replicate n (0 : Int)).getD t 0 = 0 := fun n t => by
    by_cases h : t < n
    · exact getD_replicate_of_lt n t 0 0 h
    · exact List.getD_eq_default _ _ (by rw [List.length_replicate]; omega)
  intro n
  induction n with
  | zero =>
    intro _ i j hi hj
    rw [if_neg (by omega)]
    exact hz _ _
  | succ n ih =>
    intro hn1 i j hi hj
    rw [List.range_succ, List.foldl_append, List.foldl_cons, List.foldl_nil]
    have hidxlt : ∀ t, t < m.offsets.getD (n + 1) 0 → m.indices.getD t 0 < m.rows := by
      intro t ht
      have hle : m.offsets.getD (n + 1) 0 ≤ m.nonzeros :=
        hm.offsets_le_nonzeros (n + 1) (by omega)
      rw [← hmin]
      exact hm.inRange t (by omega)
    rcases Nat.lt_trichotomy j n with hc | hc | hc
    · rw [writeColLoop_getD_miss m.indices m.values m.rows n (j * m.rows + i)
        _ _ _ (fun t h1 h2 => pos_decomp_ne m.rows n j _ i (hidxlt t h2) hi (by omega)),
        ih (by omega) i j hi hj, if_pos hc, if_pos (by omega)]
    · subst hc
      have hqlen : j * m.rows + i < m.rows * m.columns := by
        have h1 : j * m.rows + i < (j + 1) * m.rows := by
          rw [Nat.succ_mul]; omega
        have h2 : (j + 1) * m.rows ≤ m.columns * m.rows :=
          Nat.mul_le_mul_right _ (by omega)
        rw [Nat.mul_comm m.columns m.rows] at h2
        omega
      by_cases hex : ∃ t, m.offsets.getD j 0 ≤ t ∧ t < m.offsets.getD (j + 1) 0 ∧
          m.indices.getD t 0 = i
      · obtain ⟨t0, ht1, ht2, ht3⟩ := hex
        rw [writeColLoop_getD_hit m.indices m.values m.rows j (j * m.rows + i)
          _ _ _ (by rw [toDenseFold_length, List.length_replicate]; exact hqlen)
          t0 ht1 ht2 (by rw [ht3])
          (fun t hta htb => by
            have := hm.sorted_lt j t0 t (by omega) ht1 hta htb
            omega)]
        rw [if_pos (by omega)]
        symm
        apply get_eq_of_entry m hm i j t0
        · rw [hnp]; omega
        · rw [hnp]; exact ht1
        · rw [hnp]; exact ht2
        · rw [hnp]; exact ht3
      · push_neg at hex
        rw [writeColLoop_getD_miss m.indices m.values m.rows j (j * m.rows + i)
          _ _ _ (fun t h1 h2 => by
            have := hex t h1 h2
            omega),
          ih (by omega) i j hi hj, if_neg (by omega), if_pos (by omega)]
        symm
        apply get_eq_zero_of_no_entry m i j
        intro k h1 h2
        rw [hnp] at h1 h2 ⊢
        exact hex k h1 h2
    · rw [writeColLoop_getD_miss m.indices m.values m.rows n (j * m.rows + i)
        _ _ _ (fun t h1 h2 => pos_decomp_ne m.rows n j _ i (hidxlt t h2) hi (by omega)),
        ih (by omega) i j hi hj, if_neg (by omega), if_neg (by omega)]

theorem toDense_values_getD (m : Compressed) (hm : Invariant m)
    (hvar : m.variant = Variant.column) (i j : Nat)
    (hi : i < m.rows) (hj : j < m.columns) :
    (conventionalFromCompressed m).values.getD (j * m.rows + i) 0 = m.get i j := by
  unfold conventionalFromCompressed
  simp only [hvar]
  rw [toDenseFold_getD m hm hvar m.columns le_rfl i j hi hj, if_pos hj]

theorem toDense_values_length (m : Compressed) (hvar : m.variant = Variant.column) :
    (conventionalFromCompressed m).values.length = m.rows * m.columns := by
  unfold conventionalFromCompressed
  simp only [hvar]
  rw [toDenseFold_length, List.length_replicate]

/-- Reading the compressed conversion of a dense matrix recovers the
dense entry. -/
theorem get_fromConventional (c : Conventional)
    (hlen : c.values.length = c.rows * c.columns) (i j : Nat)
    (hi : i < c.rows) (hj : j < c.columns) :
    (compressedFromConventional c).get i j = c.values.getD (j * c.rows + i) 0 := by
  have hnew := invariant_new c.rows c.columns Variant.column
  have hqlen : j * c.rows + i < c.rows * c.columns := by
    have h1 : j * c.rows + i < (j + 1) * c.rows := by
      rw [Nat.succ_mul]; omega
    have h2 : (j + 1) * c.rows ≤ c.columns * c.rows :=
      Nat.mul_le_mul_right _ (by omega)
    rw [Nat.mul_comm c.columns c.rows] at h2
    omega
  have h := fromConvLoop_get c.values 0
    (Compressed.new c.rows c.columns Variant.column) hnew
    (by
      show 0 + c.values.length ≤ c.rows * c.columns
      omega) i j hi hj
  have hnr : (Compressed.new c.rows c.columns Variant.column).rows = c.rows := rfl
  rw [hnr] at h
  show (fromConvLoop c.rows 0 c.values (Compressed.new c.rows c.columns
    Variant.column)).get i j = _
  rw [h]
  by_cases hv0 : c.values.getD (j * c.rows + i) 0 = 0
  · rw [if_neg (by
      rintro ⟨_, _, hcon⟩
      rw [Nat.sub_zero] at hcon
      exact hcon hv0), get_new, hv0]
  · rw [if_pos ⟨by omega, by omega, by rw [Nat.sub_zero]; exact hv0⟩, Nat.sub_zero]

/-- The dense-compressed-dense round trip reproduces the dense value
buffer exactly. -/
theorem roundtrip_values (c : Conventional)
    (hlen : c.values.length = c.rows * c.columns) :
    (conventionalFromCompressed (compressedFromConventional c)).values = c.values := by
  obtain ⟨hminv, hmr, hmc, hmv⟩ := fromConvLoop_invariant c.values 0
    (Compressed.new c.rows c.columns Variant.column)
    (invariant_new c.rows c.columns Variant.column)
    (by show 0 + c.values.length ≤ c.rows * c.columns; omega)
  have hr : (compressedFromConventional c).rows = c.rows := hmr
  have hcc : (compressedFromConventional c).columns = c.columns := hmc
  have hvv : (compressedFromConventional c).variant = Variant.column := hmv
  have hlen2 : (conventionalFromCompressed (compressedFromConventional c)).values.length
      = c.values.length := by
    rw [toDense_values_length _ hvv, hr, hcc, hlen]
  apply List.ext_getElem hlen2
  intro q hq1 hq2
  have hq : q < c.rows * c.columns := by rw [← hlen]; exact hq2
  have hRpos : 0 < c.rows := by
    rcases Nat.eq_zero_or_pos c.rows with h | h
    · rw [h, Nat.zero_mul] at hq
      omega
    · exact h
  have hdm := Nat.div_add_mod q c.rows
  have hdecomp : q = (q / c.rows) * c.rows + q % c.rows := by
    rw [Nat.mul_comm (q / c.rows) c.rows]
    omega
  have hi : q % c.rows < c.rows := Nat.mod_lt _ hRpos
  have hj : q / c.rows < c.columns := Nat.div_lt_of_lt_mul (by omega)
  rw [← List.getD_eq_getElem _ 0, ← List.getD_eq_getElem _ 0]
  conv_lhs => rw [hdecomp]
  conv_rhs => rw [hdecomp]
  have hgd := toDense_values_getD (compressedFromConventional c) hminv hvv
    (q % c.rows) (q / c.rows) (by rw [hr]; exact hi) (by rw [hcc]; exact hj)
  rw [hr] at hgd
  rw [hgd, get_fromConventional c hlen (q % c.rows) (q / c.rows) hi hj]

/-- Characterization of the inner while loop of `retain`: starting at or
before the scan position, it stops at the unique group containing the
position, as long as the position is below the final offset. -/
theorem advanceMajor_spec (offsets : List Nat) (k : Nat) (major : Nat)
    (hmaj : major + 1 < offsets.length)
    (hmk : offsets.getD major 0 ≤ k)
    (hk : k < offsets.getD (offsets.length - 1) 0) :
    major ≤ advanceMajor offsets k major ∧
    advanceMajor offsets k major + 1 < offsets.length ∧
    offsets.getD (advanceMajor offsets k major) 0 ≤ k ∧
    k < offsets.getD (advanceMajor offsets k major + 1) 0 := by
  rw [advanceMajor]
  by_cases hg : major + 1 < offsets.length ∧ offsets.getD (major + 1) 0 ≤ k
  · rw [dif_pos hg]
    have hne : major + 1 ≠ offsets.length - 1 := by
      intro hc
      rw [hc] at hg
      omega
    obtain ⟨r1, r2, r3, r4⟩ := advanceMajor_spec offsets k (major + 1)
      (by omega) hg.2 hk
    exact ⟨by omega, r2, r3, r4⟩
  · rw [dif_neg hg]
    have hgt : k < offsets.getD (major + 1) 0 := by
      rcases Nat.lt_or_ge k (offsets.getD (major + 1) 0) with h | h
      · exact h
      · exact absurd ⟨hmaj, h⟩ hg
    exact ⟨le_rfl, hmaj, hmk, hgt⟩
termination_by offsets.length - major

/-- Removing the entry at a scan position inside a group preserves the
representation invariant, with the stored-entry count shrunk by one and
the offsets after the group shifted down by one. -/
theorem partsInv_remove {values : List Int} {indices offsets : List Nat}
    {n maj mino : Nat} (hp : PartsInv values indices offsets n maj mino)
    (k ma : Nat) (hma1 : ma + 1 < offsets.length)
    (hs : offsets.getD ma 0 ≤ k) (hk : k < offsets.getD (ma + 1) 0) :
    PartsInv (values.eraseIdx k) (indices.eraseIdx k)
      (offsets.take (ma + 1) ++ (offsets.drop (ma + 1)).map (fun x => x - 1))
      (n - 1) maj mino := by
  have hoL : offsets.length = maj + 1 := hp.offsets_len
  have hmam : ma < maj := by omega
  have hken : offsets.getD (ma + 1) 0 ≤ n := hp.offsets_le_nonzeros (ma + 1) (by omega)
  have hkn : k < n := by omega
  have hvl : values.length = n := hp.values_len
  have hil : indices.length = n := hp.indices_len
  have hgd : ∀ t, (offsets.take (ma + 1) ++ (offsets.drop (ma + 1)).map
      (fun x => x - 1)).getD t 0 =
      if t < ma + 1 then offsets.getD t 0
      else if t < offsets.length then offsets.getD t 0 - 1 else 0 :=
    fun t => getD_shiftTail offsets ma t (fun x => x - 1) (by omega)
  refine ⟨?_, ?_, ?_, ?_, ?_, ?_, ?_, ?_⟩
  · rw [List.length_eraseIdx, if_pos (by omega)]; omega
  · rw [List.length_eraseIdx, if_pos (by omega)]; omega
  · rw [length_shiftTail offsets ma (fun x => x - 1) (by omega)]; exact hoL
  · rw [hgd 0, if_pos (by omega)]; exact hp.offsets_zero
  · intro t ht
    have hm := hp.offsets_mono t ht
    by_cases h1 : t + 1 < ma + 1
    · have e1 : (offsets.take (ma + 1) ++ (offsets.drop (ma + 1)).map
          (fun x => x - 1)).getD t 0 = offsets.getD t 0 := by
        rw [hgd t, if_pos (by omega)]
      have e2 : (offsets.take (ma + 1) ++ (offsets.drop (ma + 1)).map
          (fun x => x - 1)).getD (t + 1) 0 = offsets.getD (t + 1) 0 := by
        rw [hgd (t + 1), if_pos h1]
      rw [e1, e2]; exact hm
    · have e2 : (offsets.take (ma + 1) ++ (offsets.drop (ma + 1)).map
          (fun x => x - 1)).getD (t + 1) 0 = offsets.getD (t + 1) 0 - 1 := by
        rw [hgd (t + 1), if_neg h1, if_pos (by omega)]
      by_cases h2 : t < ma + 1
      · have hma' : t = ma := by omega
        have e1 : (offsets.take (ma + 1) ++ (offsets.drop (ma + 1)).map
            (fun x => x - 1)).getD t 0 = offsets.getD t 0 := by
          rw [hgd t, if_pos h2]
        rw [e1, e2, hma']
        omega
      · have e1 : (offsets.take (ma + 1) ++ (offsets.drop (ma + 1)).map
            (fun x => x - 1)).getD t 0 = offsets.getD t 0 - 1 := by
          rw [hgd t, if_neg h2, if_pos (by omega)]
        rw [e1, e2]
        omega
  · rw [hgd maj, if_neg (by omega), if_pos (by omega), hp.offsets_last]
  · intro g t hg hgt hgt1
    rw [hgd g] at hgt
    rw [hgd (g + 1)] at hgt1
    rcases Nat.lt_trichotomy g ma with hcas | hcas | hcas
    · rw [if_pos (by omega)] at hgt
      rw [if_pos (by omega)] at hgt1
      have hend : offsets.getD (g + 1) 0 ≤ k :=
        le_trans (hp.offsets_le (g + 1) ma (by omega) (by omega)) hs
      rw [getD_eraseIdx_lt indices k t 0 (by omega),
        getD_eraseIdx_lt indices k (t + 1) 0 (by omega)]
      exact hp.sorted g t hg hgt hgt1
    · subst hcas
      rw [if_pos (by omega)] at hgt
      rw [if_neg (by omega), if_pos (by omega)] at hgt1
      rcases Nat.lt_trichotomy (t + 1) k with hc | hc | hc
      · rw [getD_eraseIdx_lt indices k t 0 (by omega),
          getD_eraseIdx_lt indices k (t + 1) 0 hc]
        exact hp.sorted g t hg hgt (by omega)
      · rw [getD_eraseIdx_lt indices k t 0 (by omega),
          getD_eraseIdx_ge indices k (t + 1) 0 (by omega)]
        exact hp.sorted_lt g t (t + 1 + 1) hg hgt (by omega) (by omega)
      · rw [getD_eraseIdx_ge indices k t 0 (by omega),
          getD_eraseIdx_ge indices k (t + 1) 0 (by omega)]
        exact hp.sorted g (t + 1) hg (by omega) (by omega)
    · rw [if_neg (by omega), if_pos (by omega)] at hgt
      rw [if_neg (by omega), if_pos (by omega)] at hgt1
      have hstart : k ≤ offsets.getD g 0 - 1 := by
        have := hp.offsets_le (ma + 1) g (by omega) (by omega)
        omega
      rw [getD_eraseIdx_ge indices k t 0 (by omega),
        getD_eraseIdx_ge indices k (t + 1) 0 (by omega)]
      exact hp.sorted g (t + 1) hg (by omega) (by omega)
  · intro t ht
    rcases Nat.lt_or_ge t k with hc | hc
    · rw [getD_eraseIdx_lt indices k t 0 hc]
      exact hp.inRange t (by omega)
    · rw [getD_eraseIdx_ge indices k t 0 hc]
      exact hp.inRange (t + 1) (by omega)

/-- The loop of `retain`: starting from a consistent state, it preserves
the representation invariant, the dimensions and the variant, never grows
the stored-entry count, and leaves only entries satisfying the
predicate. -/
theorem retainLoop_spec (cond : Nat → Nat → Int → Bool) (m : Compressed) (k major : Nat)
    (hm : Invariant m)
    (h2 : m.offsets.getD major 0 ≤ k)
    (h3 : major = 0 ∨ major + 1 < m.offsets.length)
    (h4 : ∀ j t, j < m.majorDim → m.offsets.getD j 0 ≤ t →
      t < m.offsets.getD (j + 1) 0 → t < k →
      condAt m.variant cond j (m.indices.getD t 0) (m.values.getD t 0) = true) :
    Invariant (retainLoop cond m k major) ∧
    (retainLoop cond m k major).rows = m.rows ∧
    (retainLoop cond m k major).columns = m.columns ∧
    (retainLoop cond m k major).variant = m.variant ∧
    (retainLoop cond m k major).nonzeros ≤ m.nonzeros ∧
    (∀ j t, j < (retainLoop cond m k major).majorDim →
      (retainLoop cond m k major).offsets.getD j 0 ≤ t →
      t < (retainLoop cond m k major).offsets.getD (j + 1) 0 →
      condAt m.variant cond j ((retainLoop cond m k major).indices.getD t 0)
        ((retainLoop cond m k major).values.getD t 0) = true) := by
  by_cases hklen : k < m.indices.length
  · have hil := hm.indices_len
    have hvl := hm.values_len
    have hoL := hm.offsets_len
    have hkn : k < m.nonzeros := by omega
    have hlast : k < m.offsets.getD (m.offsets.length - 1) 0 := by
      have he : m.offsets.length - 1 = m.majorDim := by omega
      rw [he, hm.offsets_last]
      omega
    have hmaj1 : major + 1 < m.offsets.length := by
      rcases h3 with h | h
      · subst h
        by_contra hc
        have hL1 : m.offsets.length = 1 := by omega
        have hlastv : m.offsets.getD m.majorDim 0 = m.nonzeros := hm.offsets_last
        have hmd : m.majorDim = 0 := by omega
        rw [hmd, hm.offsets_zero] at hlastv
        omega
      · exact h
    obtain ⟨r1, r2, r3, r4⟩ := advanceMajor_spec m.offsets k major hmaj1 h2 hlast
    set ma := advanceMajor m.offsets k major with hmadef
    by_cases hcond : condAt m.variant cond ma (m.indices.getD k 0)
      (m.values.getD k 0) = true
    · have heq : retainLoop cond m k major = retainLoop cond m (k + 1) ma := by
        conv_lhs => rw [retainLoop]
        rw [dif_pos hklen]
        show (if condAt m.variant cond ma (m.indices.getD k 0)
            (m.values.getD k 0) = true
          then retainLoop cond m (k + 1) ma else _) = _
        rw [if_pos hcond]
      rw [heq]
      apply retainLoop_spec cond m (k + 1) ma hm (by omega) (Or.inr r2)
      intro j t hj hsj hej ht
      rcases Nat.lt_or_ge t k with htk | htk
      · exact h4 j t hj hsj hej htk
      · have htk' : t = k := by omega
        subst htk'
        have hjma : j = ma := by
          rcases Nat.lt_trichotomy j ma with hc | hc | hc
          · have := hm.offsets_le (j + 1) ma (by omega) (by omega)
            omega
          · exact hc
          · have := hm.offsets_le (ma + 1) j (by omega) (by omega)
            omega
        rw [hjma]
        exact hcond
    · have heq : retainLoop cond m k major = retainLoop cond
          { m with
            nonzeros := m.nonzeros - 1,
            values := m.values.eraseIdx k,
            indices := m.indices.eraseIdx k,
            offsets := m.offsets.take (ma + 1) ++
              (m.offsets.drop (ma + 1)).map (fun x => x - 1) } k ma := by
        conv_lhs => rw [retainLoop]
        rw [dif_pos hklen]
        show (if condAt m.variant cond ma (m.indices.getD k 0)
            (m.values.getD k 0) = true
          then _ else retainLoop cond
            { m with
              nonzeros := m.nonzeros - 1,
              values := m.values.eraseIdx k,
              indices := m.indices.eraseIdx k,
              offsets := m.offsets.take (ma + 1) ++
                (m.offsets.drop (ma + 1)).map (fun x => x - 1) } k ma) = _
        rw [if_neg hcond]
      rw [heq]
      have hp' : Invariant { m with
          nonzeros := m.nonzeros - 1,
          values := m.values.eraseIdx k,
          indices := m.indices.eraseIdx k,
          offsets := m.offsets.take (ma + 1) ++
            (m.offsets.drop (ma + 1)).map (fun x => x - 1) } :=
        partsInv_remove hm k ma r2 r3 r4
      have hgd : ∀ t, (m.offsets.take (ma + 1) ++
          (m.offsets.drop (ma + 1)).map (fun x => x - 1)).getD t 0 =
          if t < ma + 1 then m.offsets.getD t 0
          else if t < m.offsets.length then m.offsets.getD t 0 - 1 else 0 :=
        fun t => getD_shiftTail m.offsets ma t (fun x => x - 1) (by omega)
    -- the recursive call on the shrunk state
      have hrec := retainLoop_spec cond
        { m with
          nonzeros := m.nonzeros - 1,
          values := m.values.eraseIdx k,
          indices := m.indices.eraseIdx k,
          offsets := m.offsets.take (ma + 1) ++
            (m.offsets.drop (ma + 1)).map (fun x => x - 1) } k ma hp'
        (by
          show (m.offsets.take (ma + 1) ++
            (m.offsets.drop (ma + 1)).map (fun x => x - 1)).getD ma 0 ≤ k
          rw [hgd ma, if_pos (by omega)]
          exact r3)
        (Or.inr (by
          show ma + 1 < (m.offsets.take (ma + 1) ++
            (m.offsets.drop (ma + 1)).map (fun x => x - 1)).length
          rw [length_shiftTail m.offsets ma (fun x => x - 1) (by omega)]
          exact r2))
        (by
          intro j t hj hsj hej ht
          show condAt m.variant cond j ((m.indices.eraseIdx k).getD t 0)
            ((m.values.eraseIdx k).getD t 0) = true
          have hj' : j < m.majorDim := hj
          have hsj' : (m.offsets.take (ma + 1) ++
              (m.offsets.drop (ma + 1)).map (fun x => x - 1)).getD j 0 ≤ t := hsj
          have hej' : t < (m.offsets.take (ma + 1) ++
              (m.offsets.drop (ma + 1)).map (fun x => x - 1)).getD (j + 1) 0 := hej
          rw [hgd j] at hsj'
          rw [hgd (j + 1)] at hej'
          rcases Nat.lt_trichotomy j ma with hc | hc | hc
          · rw [if_pos (by omega)] at hsj'
            rw [if_pos (by omega)] at hej'
            have hend : m.offsets.getD (j + 1) 0 ≤ k :=
              le_trans (hm.offsets_le (j + 1) ma (by omega) (by omega)) r3
            rw [getD_eraseIdx_lt m.indices k t 0 (by omega),
              getD_eraseIdx_lt m.values k t 0 (by omega)]
            exact h4 j t hj' hsj' hej' (by omega)
          · subst hc
            rw [if_pos (by omega)] at hsj'
            rw [if_neg (by omega), if_pos (by omega)] at hej'
            rw [getD_eraseIdx_lt m.indices k t 0 (by omega),
              getD_eraseIdx_lt m.values k t 0 (by omega)]
            exact h4 ma t hj' hsj' (by omega) (by omega)
          · rw [if_neg (by omega), if_pos (by omega)] at hsj'
            have := hm.offsets_le (ma + 1) j (by omega) (by omega)
            omega)
      obtain ⟨c1, c2, c3, c4, c5, c6⟩ := hrec
      exact ⟨c1, c2, c3, c4, le_trans c5 (Nat.sub_le _ _), c6⟩
  · have heq : retainLoop cond m k major = m := by
      rw [retainLoop, dif_neg hklen]
    rw [heq]
    refine ⟨hm, rfl, rfl, rfl, le_rfl, ?_⟩
    intro j t hj hsj hej
    have hten : m.offsets.getD (j + 1) 0 ≤ m.nonzeros :=
      hm.offsets_le_nonzeros (j + 1) (by omega)
    have hil := hm.indices_len
    exact h4 j t hj hsj hej (by omega)
termination_by m.indices.length - k
decreasing_by
  · omega
  · rw [List.length_eraseIdx, if_pos hklen]
    omega

/-- `retain` preserves the representation invariant, the dimensions and
the variant, never grows the stored-entry count, and leaves only entries
satisfying the predicate. -/
theorem retain_spec (m : Compressed) (hm : Invariant m) (cond : Nat → Nat → Int → Bool) :
    Invariant (m.retain cond) ∧
    (m.retain cond).rows = m.rows ∧
    (m.retain cond).columns = m.columns ∧
    (m.retain cond).variant = m.variant ∧
    (m.retain cond).nonzeros ≤ m.nonzeros ∧
    (∀ j t, j < (m.retain cond).majorDim →
      (m.retain cond).offsets.getD j 0 ≤ t →
      t < (m.retain cond).offsets.getD (j + 1) 0 →
      condAt m.variant cond j ((m.retain cond).indices.getD t 0)
        ((m.retain cond).values.getD t 0) = true) :=
  retainLoop_spec cond m 0 0 hm (by rw [hm.offsets_zero]) (Or.inl rfl)
    (fun j t _ _ _ ht => absurd ht (Nat.not_lt_zero t))

/-- When every entry lives in a group strictly below `b`, the offset at
`b` already reaches the stored-entry count. -/
theorem offsets_getD_eq_nonzeros_of_groups_lt {values : List Int}
    {indices offsets : List Nat} {n maj mino : Nat}
    (hp : PartsInv values indices offsets n maj mino) (b : Nat) (hb : b ≤ maj)
    (hemp : ∀ j t, j < maj → offsets.getD j 0 ≤ t →
      t < offsets.getD (j + 1) 0 → j < b) :
    offsets.getD b 0 = n := by
  have hle : offsets.getD b 0 ≤ n := hp.offsets_le_nonzeros b hb
  rcases Nat.lt_or_ge (offsets.getD b 0) n with h | h
  · exfalso
    obtain ⟨j, hj, h1, h2⟩ := exists_group offsets maj (offsets.getD b 0)
      hp.offsets_zero (by rw [hp.offsets_last]; exact h)
    have hjb : j < b := hemp j _ hj h1 h2
    have := hp.offsets_le (j + 1) b hjb hb
    omega
  · omega

/-- Adjusting the offsets vector to a new major count preserves the
representation invariant, provided the indices respect the new minor
bound and, when truncating, every entry lives below the new major
count. -/
theorem partsInv_adjust {values : List Int} {indices offsets : List Nat}
    {n maj mino into mino2 : Nat} (hp : PartsInv values indices offsets n maj mino)
    (hrange2 : ∀ k, k < n → indices.getD k 0 < mino2)
    (hmaj2 : into < maj → ∀ j t, j < maj → offsets.getD j 0 ≤ t →
      t < offsets.getD (j + 1) 0 → j < into) :
    PartsInv values indices (resizeOffsets offsets n maj into) n into mino2 := by
  unfold resizeOffsets
  have hoL : offsets.length = maj + 1 := hp.offsets_len
  rcases Nat.lt_trichotomy into maj with hc | hc | hc
  · -- truncate
    rw [if_pos (by omega)]
    have hgd2 : ∀ t, t ≤ into → (offsets.take (into + 1)).getD t 0 =
        offsets.getD t 0 := fun t ht => getD_take_of_lt offsets (into + 1) t 0 (by omega)
    have hlast : offsets.getD into 0 = n :=
      offsets_getD_eq_nonzeros_of_groups_lt hp into (by omega) (hmaj2 hc)
    refine ⟨hp.values_len, hp.indices_len, ?_, ?_, ?_, ?_, ?_, hrange2⟩
    · rw [List.length_take]
      omega
    · rw [hgd2 0 (by omega)]
      exact hp.offsets_zero
    · intro t ht
      rw [hgd2 t (by omega), hgd2 (t + 1) ht]
      exact hp.offsets_mono t (by omega)
    · rw [hgd2 into le_rfl]
      exact hlast
    · intro g t hg h1 h2
      rw [hgd2 g (by omega)] at h1
      rw [hgd2 (g + 1) (by omega)] at h2
      exact hp.sorted g t (by omega) h1 h2
  · -- same major count
    subst hc
    rw [if_neg (by omega), if_neg (by omega)]
    exact ⟨hp.values_len, hp.indices_len, hp.offsets_len, hp.offsets_zero,
      hp.offsets_mono, hp.offsets_last, hp.sorted, hrange2⟩
  · -- extend
    rw [if_neg (by omega), if_pos hc]
    have hgd2 : ∀ t, t ≤ into → (offsets ++ List.replicate (into - maj) n).getD t 0 =
        if t < maj + 1 then offsets.getD t 0 else n := by
      intro t ht
      by_cases h1 : t < maj + 1
      · rw [if_pos h1, getD_append_left _ _ _ _ (by omega)]
      · rw [if_neg h1, getD_append_right _ _ _ _ (by omega), hoL,
          getD_replicate_of_lt _ _ _ _ (by omega)]
    refine ⟨hp.values_len, hp.indices_len, ?_, ?_, ?_, ?_, ?_, hrange2⟩
    · rw [List.length_append, List.length_replicate]
      omega
    · rw [hgd2 0 (by omega), if_pos (by omega)]
      exact hp.offsets_zero
    · intro t ht
      rw [hgd2 t (by omega), hgd2 (t + 1) ht]
      by_cases h1 : t + 1 < maj + 1
      · rw [if_pos (by omega), if_pos h1]
        exact hp.offsets_mono t (by omega)
      · rw [if_neg h1]
        by_cases h2 : t < maj + 1
        · rw [if_pos h2]
          have he : t = maj := by omega
          rw [he, hp.offsets_last]
        · rw [if_neg h2]
    · rw [hgd2 into le_rfl, if_neg (by omega)]
    · intro g t hg h1 h2
      rw [hgd2 g (by omega)] at h1
      rw [hgd2 (g + 1) (by omega)] at h2
      by_cases hgm : g < maj
      · rw [if_pos (by omega)] at h1
        rw [if_pos (by omega)] at h2
        exact hp.sorted g t hgm h1 h2
      · exfalso
        rw [if_neg (by omega)] at h2
        have hn : (g = maj ∧ offsets.getD g 0 ≤ t) ∨ n ≤ t := by
          by_cases hx : g < maj + 1
          · rw [if_pos hx] at h1
            exact Or.inl ⟨by omega, h1⟩
          · rw [if_neg hx] at h1
            exact Or.inr h1
        rcases hn with ⟨hgmaj, hx⟩ | hx
        · rw [hgmaj, hp.offsets_last] at hx
          omega
        · omega

theorem majorDim_eq_columns (m : Compressed) (hv : m.variant = Variant.column) :
    m.majorDim = m.columns := by
  unfold Compressed.majorDim; rw [hv]

theorem majorDim_eq_rows (m : Compressed) (hv : m.variant = Variant.row) :
    m.majorDim = m.rows := by
  unfold Compressed.majorDim; rw [hv]

theorem minorDim_eq_rows (m : Compressed) (hv : m.variant = Variant.column) :
    m.minorDim = m.rows := by
  unfold Compressed.minorDim; rw [hv]

theorem minorDim_eq_columns (m : Compressed) (hv : m.variant = Variant.row) :
    m.minorDim = m.columns := by
  unfold Compressed.minorDim; rw [hv]

theorem resize_eq_column (m : Compressed) (r c : Nat)
    (hv : (resizePrune m r c).variant = Variant.column) :
    m.resize r c = { resizePrune m r c with
      rows := r,
      columns := c,
      offsets := resizeOffsets (resizePrune m r c).offsets
        (resizePrune m r c).nonzeros (resizePrune m r c).columns c } := by
  unfold Compressed.resize
  simp only [hv]

theorem resize_eq_row (m : Compressed) (r c : Nat)
    (hv : (resizePrune m r c).variant = Variant.row) :
    m.resize r c = { resizePrune m r c with
      rows := r,
      columns := c,
      offsets := resizeOffsets (resizePrune m r c).offsets
        (resizePrune m r c).nonzeros (resizePrune m r c).rows r } := by
  unfold Compressed.resize
  simp only [hv]

/-- The pruning step of `resize`: it preserves the invariant, the
dimensions and variant, never grows the stored-entry count, and bounds
each remaining entry's coordinates by the new dimensions (or the old ones
when no dimension shrank). -/
theorem resizePrune_spec (m : Compressed) (hm : Invariant m) (r c : Nat) :
    Invariant (resizePrune m r c) ∧
    (resizePrune m r c).rows = m.rows ∧
    (resizePrune m r c).columns = m.columns ∧
    (resizePrune m r c).variant = m.variant ∧
    (resizePrune m r c).nonzeros ≤ m.nonzeros ∧
    (∀ j t, j < (resizePrune m r c).majorDim →
      (resizePrune m r c).offsets.getD j 0 ≤ t →
      t < (resizePrune m r c).offsets.getD (j + 1) 0 →
      (m.variant = Variant.column →
        ((resizePrune m r c).indices.getD t 0 < max r m.rows ∧
          j < max c m.columns) ∧
        (r < m.rows ∨ c < m.columns →
          (resizePrune m r c).indices.getD t 0 < r ∧ j < c)) ∧
      (m.variant = Variant.row →
        ((resizePrune m r c).indices.getD t 0 < max c m.columns ∧
          j < max r m.rows) ∧
        (r < m.rows ∨ c < m.columns →
          (resizePrune m r c).indices.getD t 0 < c ∧ j < r))) := by
  unfold resizePrune
  by_cases hsh : r < m.rows ∨ c < m.columns
  · rw [if_pos hsh]
    obtain ⟨a1, a2, a3, a4, a5, a6⟩ :=
      retain_spec m hm (fun a b _ => decide (a < r) && decide (b < c))
    refine ⟨a1, a2, a3, a4, a5, ?_⟩
    intro j t hj h1 h2
    have hc := a6 j t hj h1 h2
    constructor
    · intro hvar
      rw [hvar] at hc
      unfold condAt at hc
      simp only [Bool.and_eq_true, decide_eq_true_eq] at hc
      exact ⟨⟨lt_of_lt_of_le hc.1 (Nat.le_max_left r m.rows),
        lt_of_lt_of_le hc.2 (Nat.le_max_left c m.columns)⟩,
        fun _ => ⟨hc.1, hc.2⟩⟩
    · intro hvar
      rw [hvar] at hc
      unfold condAt at hc
      simp only [Bool.and_eq_true, decide_eq_true_eq] at hc
      exact ⟨⟨lt_of_lt_of_le hc.2 (Nat.le_max_left c m.columns),
        lt_of_lt_of_le hc.1 (Nat.le_max_left r m.rows)⟩,
        fun _ => ⟨hc.2, hc.1⟩⟩
  · rw [if_neg hsh]
    refine ⟨hm, rfl, rfl, rfl, le_rfl, ?_⟩
    intro j t hj h1 h2
    have hten : m.offsets.getD (j + 1) 0 ≤ m.nonzeros :=
      hm.offsets_le_nonzeros (j + 1) (by omega)
    have hidx := hm.inRange t (by omega)
    constructor
    · intro hvar
      have hmd := majorDim_eq_columns m hvar
      have hnd := minorDim_eq_rows m hvar
      refine ⟨⟨lt_of_lt_of_le (by omega) (Nat.le_max_right r m.rows),
        lt_of_lt_of_le (by omega) (Nat.le_max_right c m.columns)⟩,
        fun hcon => absurd hcon hsh⟩
    · intro hvar
      have hmd := majorDim_eq_rows m hvar
      have hnd := minorDim_eq_columns m hvar
      refine ⟨⟨lt_of_lt_of_le (by omega) (Nat.le_max_right c m.columns),
        lt_of_lt_of_le (by omega) (Nat.le_max_right r m.rows)⟩,
        fun hcon => absurd hcon hsh⟩

/-- `resize` preserves the representation invariant. -/
theorem invariant_resize (m : Compressed) (hm : Invariant m) (r c : Nat) :
    Invariant (m.resize r c) := by
  obtain ⟨hI1, hr1, hc1, hv1, hn1, hcond1⟩ := resizePrune_spec m hm r c
  cases hvar : m.variant
  · have hv1c : (resizePrune m r c).variant = Variant.column := by rw [hv1, hvar]
    rw [resize_eq_column m r c hv1c]
    have hp1 : PartsInv (resizePrune m r c).values (resizePrune m r c).indices
        (resizePrune m r c).offsets (resizePrune m r c).nonzeros
        (resizePrune m r c).columns (resizePrune m r c).rows := by
      have h := hI1
      unfold Invariant at h
      rw [majorDim_eq_columns _ hv1c, minorDim_eq_rows _ hv1c] at h
      exact h
    have hMv : ({ resizePrune m r c with
        rows := r,
        columns := c,
        offsets := resizeOffsets (resizePrune m r c).offsets
          (resizePrune m r c).nonzeros (resizePrune m r c).columns c } :
        Compressed).variant = Variant.column := hv1c
    unfold Invariant
    rw [majorDim_eq_columns _ hMv, minorDim_eq_rows _ hMv]
    show PartsInv (resizePrune m r c).values (resizePrune m r c).indices
      (resizeOffsets (resizePrune m r c).offsets (resizePrune m r c).nonzeros
        (resizePrune m r c).columns c)
      (resizePrune m r c).nonzeros c r
    apply partsInv_adjust hp1
    · intro k hk
      obtain ⟨j, hj, h1, h2⟩ := exists_group (resizePrune m r c).offsets
        (resizePrune m r c).columns k hp1.offsets_zero
        (by rw [hp1.offsets_last]; exact hk)
      have hjd : j < (resizePrune m r c).majorDim := by
        rw [majorDim_eq_columns _ hv1c]; exact hj
      have hb := (hcond1 j k hjd h1 h2).1 hvar
      rcases Nat.lt_or_ge ((resizePrune m r c).indices.getD k 0) r with h | h
      · exact h
      · have hbig := hb.1.1
        have hsh : r < m.rows ∨ c < m.columns := by
          left
          by_contra hmr
          push_neg at hmr
          rw [Nat.max_eq_left hmr] at hbig
          omega
        exact (hb.2 hsh).1
    · intro hlt j t hj h1 h2
      have hjd : j < (resizePrune m r c).majorDim := by
        rw [majorDim_eq_columns _ hv1c]; exact hj
      have hb := (hcond1 j t hjd h1 h2).1 hvar
      rcases Nat.lt_or_ge j c with h | h
      · exact h
      · have hbig := hb.1.2
        have hsh : r < m.rows ∨ c < m.columns := by
          right
          by_contra hmc
          push_neg at hmc
          rw [Nat.max_eq_left hmc] at hbig
          omega
        exact (hb.2 hsh).2
  · have hv1c : (resizePrune m r c).variant = Variant.row := by rw [hv1, hvar]
    rw [resize_eq_row m r c hv1c]
    have hp1 : PartsInv (resizePrune m r c).values (resizePrune m r c).indices
        (resizePrune m r c).offsets (resizePrune m r c).nonzeros
        (resizePrune m r c).rows (resizePrune m r c).columns := by
      have h := hI1
      unfold Invariant at h
      rw [majorDim_eq_rows _ hv1c, minorDim_eq_columns _ hv1c] at h
      exact h
    have hMv : ({ resizePrune m r c with
        rows := r,
        columns := c,
        offsets := resizeOffsets (resizePrune m r c).offsets
          (resizePrune m r c).nonzeros (resizePrune m r c).rows r } :
        Compressed).variant = Variant.row := hv1c
    unfold Invariant
    rw [majorDim_eq_rows _ hMv, minorDim_eq_columns _ hMv]
    show PartsInv (resizePrune m r c).values (resizePrune m r c).indices
      (resizeOffsets (resizePrune m r c).offsets (resizePrune m r c).nonzeros
        (resizePrune m r c).rows r)
      (resizePrune m r c).nonzeros r c
    apply partsInv_adjust hp1
    · intro k hk
      obtain ⟨j, hj, h1, h2⟩ := exists_group (resizePrune m r c).offsets
        (resizePrune m r c).rows k hp1.offsets_zero
        (by rw [hp1.offsets_last]; exact hk)
      have hjd : j < (resizePrune m r c).majorDim := by
        rw [majorDim_eq_rows _ hv1c]; exact hj
      have hb := (hcond1 j k hjd h1 h2).2 hvar
      rcases Nat.lt_or_ge ((resizePrune m r c).indices.getD k 0) c with h | h
      · exact h
      · have hbig := hb.1.1
        have hsh : r < m.rows ∨ c < m.columns := by
          right
          by_contra hmc
          push_neg at hmc
          rw [Nat.max_eq_left hmc] at hbig
          omega
        exact (hb.2 hsh).1
    · intro hlt j t hj h1 h2
      have hjd : j < (resizePrune m r c).majorDim := by
        rw [majorDim_eq_rows _ hv1c]; exact hj
      have hb := (hcond1 j t hjd h1 h2).2 hvar
      rcases Nat.lt_or_ge j r with h | h
      · exact h
      · have hbig := hb.1.2
        have hsh : r < m.rows ∨ c < m.columns := by
          left
          by_contra hmr
          push_neg at hmr
          rw [Nat.max_eq_left hmr] at hbig
          omega
        exact (hb.2 hsh).2

theorem resize_rows (m : Compressed) (r c : Nat) : (m.resize r c).rows = r := rfl

theorem resize_columns (m : Compressed) (r c : Nat) : (m.resize r c).columns = c := rfl

theorem resize_nonzeros_eq (m : Compressed) (r c : Nat) :
    (m.resize r c).nonzeros = (resizePrune m r c).nonzeros := rfl

/-- `resize` never grows the stored-entry count. -/
theorem resize_nonzeros_le (m : Compressed) (hm : Invariant m) (r c : Nat) :
    (m.resize r c).nonzeros ≤ m.nonzeros := by
  rw [resize_nonzeros_eq]
  exact (resizePrune_spec m hm r c).2.2.2.2.1

/-- Growing a matrix never changes the value read at a previously
in-bounds coordinate. -/
theorem get_resize_grow (m : Compressed) (hm : Invariant m) (r c : Nat)
    (hr : m.rows ≤ r) (hc : m.columns ≤ c) (i j : Nat)
    (hi : i < m.rows) (hj : j < m.columns) :
    (m.resize r c).get i j = m.get i j := by
  have hnosh : ¬(r < m.rows ∨ c < m.columns) := by omega
  have hm1 : resizePrune m r c = m := by
    unfold resizePrune
    rw [if_neg hnosh]
  have hoL := hm.offsets_len
  cases hvar : m.variant
  · have hmaj := majorDim_eq_columns m hvar
    rw [resize_eq_column m r c (by rw [hm1]; exact hvar), hm1]
    have hgd : ∀ t, t < m.columns + 1 →
        (resizeOffsets m.offsets m.nonzeros m.columns c).getD t 0 =
          m.offsets.getD t 0 := by
      intro t ht
      unfold resizeOffsets
      rw [if_neg (by omega)]
      by_cases hcc : m.columns < c
      · rw [if_pos hcc, getD_append_left _ _ _ _ (by rw [hoL, hmaj]; omega)]
      · rw [if_neg hcc]
    unfold Compressed.get
    dsimp only
    rw [hvar]
    simp only [normPos]
    rw [hgd j (by omega), hgd (j + 1) (by omega)]
  · have hmaj := majorDim_eq_rows m hvar
    rw [resize_eq_row m r c (by rw [hm1]; exact hvar), hm1]
    have hgd : ∀ t, t < m.rows + 1 →
        (resizeOffsets m.offsets m.nonzeros m.rows r).getD t 0 =
          m.offsets.getD t 0 := by
      intro t ht
      unfold resizeOffsets
      rw [if_neg (by omega)]
      by_cases hcc : m.rows < r
      · rw [if_pos hcc, getD_append_left _ _ _ _ (by rw [hoL, hmaj]; omega)]
      · rw [if_neg hcc]
    unfold Compressed.get
    dsimp only
    rw [hvar]
    simp only [normPos]
    rw [hgd i (by omega), hgd (i + 1) (by omega)]

/-- The counting fold of the `nonzeros()` method: bounded by the length,
with equality exactly when no value is zero. -/
theorem countFold_spec (l : List Int) : ∀ acc : Nat,
    l.foldl (fun sum v => if v = 0 then sum else sum + 1) acc ≤ acc + l.length ∧
    (l.foldl (fun sum v => if v = 0 then sum else sum + 1) acc = acc + l.length ↔
      ∀ v ∈ l, v ≠ 0) := by
  induction l with
  | nil =>
    intro acc
    refine ⟨by simp, ?_⟩
    simp
  | cons x xs ih =>
    intro acc
    rw [List.foldl_cons]
    by_cases hx : x = 0
    · rw [if_pos hx]
      obtain ⟨ih1, ih2⟩ := ih acc
      constructor
      · simp only [List.length_cons]
        omega
      · constructor
        · intro h
          simp only [List.length_cons] at h
          omega
        · intro h
          exact absurd hx (h x (List.mem_cons_self x xs))
    · rw [if_neg hx]
      obtain ⟨ih1, ih2⟩ := ih (acc + 1)
      constructor
      · simp only [List.length_cons]
        omega
      · constructor
        · intro h
          simp only [List.length_cons] at h
          intro v hv
          rcases List.mem_cons.mp hv with hv | hv
          · rw [hv]; exact hx
          · exact ih2.mp (by omega) v hv
        · intro h
          simp only [List.length_cons]
          have := ih2.mpr (fun v hv => h v (List.mem_cons_of_mem x hv))
          omega

/-- The structure of the diagonal-to-compressed conversion. -/
theorem diagonal_conversion (d : Diagonal)
    (hlen : d.values.length = min d.rows d.columns) :
    (compressedFromDiagonal d).nonzeros = min d.rows d.columns ∧
    (compressedFromDiagonal d).variant = Variant.column ∧
    (compressedFromDiagonal d).values = d.values ∧
    (compressedFromDiagonal d).indices = List.range (min d.rows d.columns) ∧
    (compressedFromDiagonal d).offsets.length = d.columns + 1 ∧
    (∀ t, t < d.columns + 1 →
      (compressedFromDiagonal d).offsets.getD t 0 =
        if t ≤ min d.rows d.columns then t else min d.rows d.columns) := by
  unfold compressedFromDiagonal
  dsimp only
  refine ⟨hlen, rfl, rfl, by rw [hlen], by rw [List.length_map, List.length_range], ?_⟩
  intro t ht
  rw [getD_map_of_lt _ _ _ (by rw [List.length_range]; omega)]
  have hrg : (List.range (d.columns + 1)).getD t 0 = t := by
    rw [List.getD_eq_getElem _ _ (by rw [List.length_range]; omega), List.getElem_range]
  rw [hrg, hlen]
  by_cases h : t < min d.rows d.columns
  · rw [if_pos h, if_pos (by omega)]
  · rw [if_neg h]
    by_cases h2 : t ≤ min d.rows d.columns
    · have he : t = min d.rows d.columns := by omega
      rw [if_pos h2, he]
    · rw [if_neg h2]

/-- The scan of `get` over a strictly sorted range equals the sum of the
matching entries (of which there is at most one). -/
theorem scanGet_eq_sum (indices : List Nat) (values : List Int) (i : Nat) (s e : Nat)
    (hsort : ∀ t1 t2, s ≤ t1 → t1 < t2 → t2 < e →
      indices.getD t1 0 < indices.getD t2 0) :
    scanGet indices values i s e =
      ∑ t ∈ Finset.Ico s e, (if indices.getD t 0 = i then values.getD t 0 else 0) := by
  rw [scanGet]
  by_cases hse : s < e
  · rw [if_pos hse, Finset.sum_eq_sum_Ico_succ_bot hse]
    by_cases h1 : indices.getD s 0 = i
    · rw [if_pos h1, if_pos h1]
      have hrest : ∑ t ∈ Finset.Ico (s + 1) e,
          (if indices.getD t 0 = i then values.getD t 0 else 0) = 0 := by
        apply Finset.sum_eq_zero
        intro t ht
        rw [Finset.mem_Ico] at ht
        have := hsort s t le_rfl (by omega) ht.2
        rw [if_neg (by omega)]
      rw [hrest, add_zero]
    · rw [if_neg h1, if_neg h1]
      by_cases h2 : indices.getD s 0 > i
      · rw [if_pos h2]
        have hrest : ∑ t ∈ Finset.Ico (s + 1) e,
            (if indices.getD t 0 = i then values.getD t 0 else 0) = 0 := by
          apply Finset.sum_eq_zero
          intro t ht
          rw [Finset.mem_Ico] at ht
          have := hsort s t le_rfl (by omega) ht.2
          rw [if_neg (by omega)]
        rw [hrest, add_zero]
      · rw [if_neg h2,
          scanGet_eq_sum indices values i (s + 1) e
            (fun t1 t2 ha hb hc => hsort t1 t2 (by omega) hb hc), zero_add]
  · rw [if_neg hse, Finset.Ico_eq_empty (by omega), Finset.sum_empty]
termination_by e - s

theorem mulGroupLoop_length (indices : List Nat) (values : List Int) (bj : Int)
    (k e : Nat) (c : List Int) :
    (mulGroupLoop indices values bj k e c).length = c.length := by
  rw [mulGroupLoop]
  by_cases hke : k < e
  · rw [if_pos hke, mulGroupLoop_length indices values bj (k + 1) e _, List.length_set]
  · rw [if_neg hke]
termination_by e - k

/-- The entrywise effect of the inner multiply loop: each output position
accumulates the products of the matching entries. -/
theorem mulGroupLoop_getD (indices : List Nat) (values : List Int) (bj : Int)
    (e q : Nat) (k : Nat) (c : List Int)
    (hbound : ∀ t, k ≤ t → t < e → indices.getD t 0 < c.length) :
    (mulGroupLoop indices values bj k e c).getD q 0 =
      c.getD q 0 + ∑ t ∈ Finset.Ico k e,
        (if indices.getD t 0 = q then values.getD t 0 * bj else 0) := by
  rw [mulGroupLoop]
  by_cases hke : k < e
  · rw [if_pos hke]
    have hlen : indices.getD k 0 < c.length := hbound k le_rfl hke
    rw [mulGroupLoop_getD indices values bj e q (k + 1) _
      (fun t ht1 ht2 => by rw [List.length_set]; exact hbound t (by omega) ht2)]
    rw [Finset.sum_eq_sum_Ico_succ_bot hke]
    have hset : (c.set (indices.getD k 0)
        (c.getD (indices.getD k 0) 0 + values.getD k 0 * bj)).getD q 0 =
        c.getD q 0 + (if indices.getD k 0 = q then values.getD k 0 * bj else 0) := by
      by_cases hq : indices.getD k 0 = q
      · rw [if_pos hq, ← hq, getD_set_self _ _ _ _ hlen]
      · rw [if_neg hq, getD_set_ne _ _ _ _ _ (fun hc => hq hc.symm), add_zero]
    rw [hset]
    omega
  · rw [if_neg hke, Finset.Ico_eq_empty (by omega), Finset.sum_empty, add_zero]
termination_by e - k

/-- `get` of a column-variant matrix, unfolded. -/
theorem get_column (a : Compressed) (hvar : a.variant = Variant.column) (i j : Nat) :
    a.get i j = scanGet a.indices a.values i
      (a.offsets.getD j 0) (a.offsets.getD (j + 1) 0) := by
  unfold Compressed.get
  rw [hvar]
  rfl

theorem mvlFold_length (a : Compressed) (b : List Int) :
    ∀ (p : Nat) (c : List Int),
    ((List.range p).foldl (fun c j =>
      mulGroupLoop a.indices a.values (b.getD j 0)
        (a.offsets.getD j 0) (a.offsets.getD (j + 1) 0) c) c).length = c.length := by
  intro p
  induction p with
  | zero => intro c; rfl
  | succ p ih =>
    intro c
    rw [List.range_succ, List.foldl_append, List.foldl_cons, List.foldl_nil,
      mulGroupLoop_length, ih]

/-- The entrywise effect of the sparse-times-vector kernel over the first
`p` columns. -/
theorem mvlFold_getD (a : Compressed) (ha : Invariant a)
    (hvar : a.variant = Variant.column) (b : List Int) :
    ∀ (p : Nat), p ≤ a.columns → ∀ (c : List Int), c.length = a.rows →
    ∀ q, q < a.rows →
    ((List.range p).foldl (fun c j =>
      mulGroupLoop a.indices a.values (b.getD j 0)
        (a.offsets.getD j 0) (a.offsets.getD (j + 1) 0) c) c).getD q 0 =
      c.getD q 0 + ∑ j ∈ Finset.range p, a.get q j * b.getD j 0 := by
  have hmaj := majorDim_eq_columns a hvar
  have hmin := minorDim_eq_rows a hvar
  intro p
  induction p with
  | zero =>
    intro _ c hc q hq
    rw [Finset.range_zero, Finset.sum_empty, add_zero]
    rfl
  | succ p ih =>
    intro hp c hc q hq
    rw [List.range_succ, List.foldl_append, List.foldl_cons, List.foldl_nil]
    have hoff : a.offsets.getD (p + 1) 0 ≤ a.nonzeros :=
      ha.offsets_le_nonzeros (p + 1) (by omega)
    rw [mulGroupLoop_getD a.indices a.values (b.getD p 0) (a.offsets.getD (p + 1) 0) q
      (a.offsets.getD p 0) _
      (fun t ht1 ht2 => by
        rw [mvlFold_length, hc]
        have hmino := ha.inRange t (by omega)
        rw [hmin] at hmino
        exact hmino)]
    rw [ih (by omega) c hc q hq, Finset.sum_range_succ]
    have hgroup : ∑ t ∈ Finset.Ico (a.offsets.getD p 0) (a.offsets.getD (p + 1) 0),
        (if a.indices.getD t 0 = q then a.values.getD t 0 * b.getD p 0 else 0) =
        a.get q p * b.getD p 0 := by
      rw [get_column a hvar q p, scanGet_eq_sum a.indices a.values q _ _
        (fun t1 t2 h1 h2 h3 => ha.sorted_lt p t1 t2 (by omega) h1 h2 h3),
        Finset.sum_mul]
      apply Finset.sum_congr rfl
      intro t ht
      by_cases hqt : a.indices.getD t 0 = q
      · rw [if_pos hqt, if_pos hqt]
      · rw [if_neg hqt, if_neg hqt, zero_mul]
    rw [hgroup]
    omega

theorem multiplyVectorLeft_length (a : Compressed) (b c : List Int) (p : Nat) :
    (multiplyVectorLeft a b c p).length = c.length :=
  mvlFold_length a b p c

theorem multiplyVectorLeft_getD (a : Compressed) (ha : Invariant a)
    (hvar : a.variant = Variant.column) (b c : List Int)
    (hc : c.length = a.rows) (q : Nat) (hq : q < a.rows) :
    (multiplyVectorLeft a b c a.columns).getD q 0 =
      c.getD q 0 + ∑ j ∈ Finset.range a.columns, a.get q j * b.getD j 0 :=
  mvlFold_getD a ha hvar b a.columns le_rfl c hc q hq

/-- The sparse-times-dense kernel, restricted to the first `nn` output
columns: its length is unchanged, filled output columns hold their prior
contents plus the product entries, and the rest are untouched. -/
theorem mmlFold_spec (a : Compressed) (ha : Invariant a)
    (hvar : a.variant = Variant.column) (b c : List Int) (n : Nat)
    (_hb : b.length = a.columns * n) (hc : c.length = a.rows * n) :
    ∀ (nn : Nat), nn ≤ n →
    (multiplyMatrixLeft a b c a.rows a.columns nn).length = c.length ∧
    (∀ col i, col < n → i < a.rows →
      (multiplyMatrixLeft a b c a.rows a.columns nn).getD (col * a.rows + i) 0 =
        if col < nn then
          c.getD (col * a.rows + i) 0 +
            ∑ j ∈ Finset.range a.columns, a.get i j * b.getD (col * a.columns + j) 0
        else c.getD (col * a.rows + i) 0) := by
  intro nn
  induction nn with
  | zero =>
    intro _
    constructor
    · rfl
    · intro col i _ _
      rw [if_neg (by omega)]
      rfl
  | succ nn ih =>
    intro hnn
    obtain ⟨ihl, ihg⟩ := ih (by omega)
    have hstep : multiplyMatrixLeft a b c a.rows a.columns (nn + 1) =
        (multiplyMatrixLeft a b c a.rows a.columns nn).take (nn * a.rows) ++
          multiplyVectorLeft a ((b.drop (nn * a.columns)).take a.columns)
            (((multiplyMatrixLeft a b c a.rows a.columns nn).drop
              (nn * a.rows)).take a.rows) a.columns ++
          (multiplyMatrixLeft a b c a.rows a.columns nn).drop
            (nn * a.rows + a.rows) := by
      unfold multiplyMatrixLeft
      rw [List.range_succ, List.foldl_append, List.foldl_cons, List.foldl_nil]
    have hmul1 : (nn + 1) * a.rows ≤ n * a.rows :=
      Nat.mul_le_mul_right _ (by omega)
    have hmul2 : a.rows * n = n * a.rows := Nat.mul_comm _ _
    have hmul3 : (nn + 1) * a.rows = nn * a.rows + a.rows := Nat.succ_mul _ _
    have hfits : nn * a.rows + a.rows ≤ c.length := by omega
    have hslice_len : (((multiplyMatrixLeft a b c a.rows a.columns nn).drop
        (nn * a.rows)).take a.rows).length = a.rows := by
      rw [List.length_take, List.length_drop, ihl]
      omega
    have hy := multiplyVectorLeft_length a
      ((b.drop (nn * a.columns)).take a.columns)
      (((multiplyMatrixLeft a b c a.rows a.columns nn).drop
        (nn * a.rows)).take a.rows) a.columns
    rw [hslice_len] at hy
    have hsplice : ∀ q2,
        ((multiplyMatrixLeft a b c a.rows a.columns nn).take (nn * a.rows) ++
          multiplyVectorLeft a ((b.drop (nn * a.columns)).take a.columns)
            (((multiplyMatrixLeft a b c a.rows a.columns nn).drop
              (nn * a.rows)).take a.rows) a.columns ++
          (multiplyMatrixLeft a b c a.rows a.columns nn).drop
            (nn * a.rows + a.rows)).getD q2 0 =
        if q2 < nn * a.rows then
          (multiplyMatrixLeft a b c a.rows a.columns nn).getD q2 0
        else if q2 < nn * a.rows + a.rows then
          (multiplyVectorLeft a ((b.drop (nn * a.columns)).take a.columns)
            (((multiplyMatrixLeft a b c a.rows a.columns nn).drop
              (nn * a.rows)).take a.rows) a.columns).getD (q2 - nn * a.rows) 0
        else (multiplyMatrixLeft a b c a.rows a.columns nn).getD q2 0 := by
      intro q2
      have htk : ((multiplyMatrixLeft a b c a.rows a.columns nn).take
          (nn * a.rows)).length = nn * a.rows := by
        rw [List.length_take, ihl]
        omega
      have hinlen : ((multiplyMatrixLeft a b c a.rows a.columns nn).take
          (nn * a.rows) ++
          multiplyVectorLeft a ((b.drop (nn * a.columns)).take a.columns)
            (((multiplyMatrixLeft a b c a.rows a.columns nn).drop
              (nn * a.rows)).take a.rows) a.columns).length =
          nn * a.rows + a.rows := by
        rw [List.length_append, htk, hy]
      by_cases h2 : q2 < nn * a.rows + a.rows
      · rw [getD_append_left _ _ _ _ (by rw [hinlen]; omega)]
        by_cases h1 : q2 < nn * a.rows
        · rw [if_pos h1, getD_append_left _ _ _ _ (by rw [htk]; omega),
            getD_take_of_lt _ _ _ _ h1]
        · rw [if_neg h1, if_pos h2, getD_append_right _ _ _ _ (by rw [htk]; omega),
            htk]
      · rw [if_neg (show ¬ q2 < nn * a.rows by omega), if_neg h2,
          getD_append_right _ _ _ _ (by rw [hinlen]; omega), hinlen,
          getD_drop_add]
        have harith : nn * a.rows + a.rows + (q2 - (nn * a.rows + a.rows)) = q2 := by
          omega
        rw [harith]
    rw [hstep]
    constructor
    · rw [List.length_append, List.length_append, List.length_take, hy,
        List.length_drop, ihl]
      omega
    · intro col i hcol hi
      rw [hsplice (col * a.rows + i)]
      rcases Nat.lt_trichotomy col nn with hcc | hcc | hcc
      · have hup : (col + 1) * a.rows ≤ nn * a.rows :=
          Nat.mul_le_mul_right _ (by omega)
        have hsm : (col + 1) * a.rows = col * a.rows + a.rows := Nat.succ_mul _ _
        rw [if_pos (show col * a.rows + i < nn * a.rows by omega),
          ihg col i hcol hi, if_pos hcc,
          if_pos (show col < nn + 1 by omega)]
      · subst hcc
        rw [if_neg (show ¬ col * a.rows + i < col * a.rows by omega),
          if_pos (show col * a.rows + i < col * a.rows + a.rows by omega)]
        have hsub : col * a.rows + i - col * a.rows = i := by omega
        rw [hsub]
        rw [multiplyVectorLeft_getD a ha hvar _ _ hslice_len i hi]
        have hcs : (((multiplyMatrixLeft a b c a.rows a.columns col).drop
            (col * a.rows)).take a.rows).getD i 0 =
            c.getD (col * a.rows + i) 0 := by
          rw [getD_take_of_lt _ _ _ _ hi, getD_drop_add,
            ihg col i hcol hi, if_neg (show ¬ col < col by omega)]
        rw [hcs, if_pos (show col < col + 1 by omega)]
        congr 1
        apply Finset.sum_congr rfl
        intro j hj
        rw [Finset.mem_range] at hj
        rw [getD_take_of_lt _ _ _ _ hj, getD_drop_add]
      · have hup : (nn + 1) * a.rows ≤ col * a.rows :=
          Nat.mul_le_mul_right _ (by omega)
        rw [if_neg (show ¬ col * a.rows + i < nn * a.rows by omega),
          if_neg (show ¬ col * a.rows + i < nn * a.rows + a.rows by omega),
          ihg col i hcol hi, if_neg (show ¬ col < nn by omega),
          if_neg (show ¬ col < nn + 1 by omega)]

/-- The `multiply_into` kernel is add-into: the output length is
unchanged and every output entry equals its prior contents plus the
matching entry of the matrix product. -/
theorem multiplyInto_spec (a : Compressed) (ha : Invariant a)
    (hvar : a.variant = Variant.column) (b c : List Int) (n : Nat)
    (hp : 0 < a.columns) (hb : b.length = a.columns * n)
    (hc : c.length = a.rows * n) :
    (a.multiplyInto b c).length = c.length ∧
    (∀ col i, col < n → i < a.rows →
      (a.multiplyInto b c).getD (col * a.rows + i) 0 =
        c.getD (col * a.rows + i) 0 +
          ∑ j ∈ Finset.range a.columns, a.get i j *
            b.getD (col * a.columns + j) 0) := by
  have hdiv : b.length / a.columns = n := by
    rw [hb]
    exact Nat.mul_div_cancel_left n hp
  have he : a.multiplyInto b c = multiplyMatrixLeft a b c a.rows a.columns n := by
    unfold Compressed.multiplyInto
    rw [hdiv]
  rw [he]
  obtain ⟨hl, hg⟩ := mmlFold_spec a ha hvar b c n hb hc n le_rfl
  refine ⟨hl, ?_⟩
  intro col i hcol hi
  rw [hg col i hcol hi, if_pos hcol]

/-- The counting fold of `nonzeros()` computes the length of the filtered
value list. -/
theorem countFold_eq_filter (l : List Int) : ∀ acc : Nat,
    l.foldl (fun sum v => if v = 0 then sum else sum + 1) acc =
      acc + (l.filter (fun v => decide (v ≠ 0))).length := by
  induction l with
  | nil => intro acc; simp
  | cons x xs ih =>
    intro acc
    rw [List.foldl_cons, List.filter_cons]
    by_cases hx : x = 0
    · rw [if_pos hx]
      have hd : (decide (x ≠ 0)) = false := by simp [hx]
      rw [hd, if_neg (by simp), ih acc]
    · rw [if_neg hx]
      have hd : (decide (x ≠ 0)) = true := by simp [hx]
      rw [hd, if_pos rfl, ih (acc + 1), List.length_cons]
      omega

/-- A concrete 5 x 3 column-variant matrix with four stored entries, the
compressed form of the conversion scenario's dense matrix. -/
def mEx : Compressed :=
  { rows := 5, columns := 3, nonzeros := 4, variant := Variant.column,
    values := [1, 2, 3, 4], indices := [1, 3, 4, 4], offsets := [0, 1, 3, 4] }

/-- A concrete 3 x 5 row-variant matrix with four stored entries. -/
def mRow : Compressed :=
  { rows := 3, columns := 5, nonzeros := 4, variant := Variant.row,
    values := [1, 2, 3, 4], indices := [1, 3, 4, 4], offsets := [0, 1, 3, 4] }

/-- The conversion scenario's dense 5 x 3 matrix, column-major. -/
def convEx : Conventional :=
  { rows := 5, columns := 3,
    values := [0, 1, 0, 0, 0, 0, 0, 0, 2, 3, 0, 0, 0, 0, 4] }

/-- A concrete retain predicate: keep positive values. -/
def condEx : Nat → Nat → Int → Bool := fun _ _ v => decide (0 < v)

/-- A concrete diagonal matrix with a zero diagonal entry. -/
def diagEx : Diagonal := { rows := 5, columns := 3, values := [1, 0, 3] }

/-- A concrete dense 3 x 2 right operand, column-major. -/
def bEx : List Int := [1, 2, 3, 4, 5, 6]

/-- A concrete pre-seeded 5 x 2 accumulator, column-major. -/
def accEx : List Int := [1, 1, 1, 1, 1, 1, 1, 1, 1, 1]

/-- C1: for every matrix satisfying the representation invariant, each
public mutating operation — `set` at an in-bounds coordinate, `resize`,
and `retain` — preserves it: the stored-entry count matches the lengths
of `values` and `indices`, `offsets` has major count plus one elements,
and within each major group the indices are strictly increasing, hence
unique (all packaged in `Invariant`). -/
theorem spec_c1 (m : Compressed) (hm : Invariant m) :
    (∀ i j v, i < m.rows → j < m.columns → Invariant (m.set i j v)) ∧
    (∀ r c, Invariant (m.resize r c)) ∧
    (∀ cond, Invariant (m.retain cond)) :=
  ⟨fun i j v hi hj => invariant_set m hm i j v hi hj,
   fun r c => invariant_resize m hm r c,
   fun cond => (retain_spec m hm cond).1⟩

theorem spec_c1_w :
    mEx.invariantHolds = true ∧
    ((∀ i j v, i < mEx.rows → j < mEx.columns → Invariant (mEx.set i j v)) ∧
     (∀ r c, Invariant (mEx.resize r c)) ∧
     (∀ cond, Invariant (mEx.retain cond))) :=
  ⟨by decide, spec_c1 mEx (Invariant.of_bool mEx (by decide))⟩

/-- C2: for every matrix satisfying the representation invariant, every
in-bounds coordinate and every value, `set` followed by `get` at the same
coordinate returns exactly that value, for both variants. -/
theorem spec_c2 (m : Compressed) (hm : Invariant m) (i j : Nat) (v : Int)
    (hi : i < m.rows) (hj : j < m.columns) :
    (m.set i j v).get i j = v :=
  get_set_same m hm i j v hi hj

theorem spec_c2_w :
    mEx.invariantHolds = true ∧ mRow.invariantHolds = true ∧
    (mEx.set 1 0 7).get 1 0 = 7 ∧ (mRow.set 0 1 (-2)).get 0 1 = -2 :=
  ⟨by decide, by decide,
   spec_c2 mEx (Invariant.of_bool mEx (by decide)) 1 0 7 (by decide) (by decide),
   spec_c2 mRow (Invariant.of_bool mRow (by decide)) 0 1 (-2) (by decide) (by decide)⟩

/-- C3: for every dense matrix whose buffer matches its dimensions,
converting to compressed form and back reproduces the original value
buffer exactly. -/
theorem spec_c3 (c : Conventional) (hlen : c.values.length = c.rows * c.columns) :
    (conventionalFromCompressed (compressedFromConventional c)).values = c.values :=
  roundtrip_values c hlen

theorem spec_c3_w :
    convEx.values.length = convEx.rows * convEx.columns ∧
    (conventionalFromCompressed (compressedFromConventional convEx)).values =
      convEx.values :=
  ⟨by decide, spec_c3 convEx (by decide)⟩

/-- C4: after `retain`, every remaining stored entry satisfies the
predicate, the offsets stay monotone non-decreasing, the last offset
equals the stored-entry count, and within each remaining group the
indices are strictly increasing, hence unique. -/
theorem spec_c4 (m : Compressed) (hm : Invariant m) (cond : Nat → Nat → Int → Bool) :
    (∀ j t, j < (m.retain cond).majorDim →
      (m.retain cond).offsets.getD j 0 ≤ t →
      t < (m.retain cond).offsets.getD (j + 1) 0 →
      condAt m.variant cond j ((m.retain cond).indices.getD t 0)
        ((m.retain cond).values.getD t 0) = true) ∧
    (∀ j, j + 1 ≤ (m.retain cond).majorDim →
      (m.retain cond).offsets.getD j 0 ≤ (m.retain cond).offsets.getD (j + 1) 0) ∧
    (m.retain cond).offsets.getD (m.retain cond).majorDim 0 =
      (m.retain cond).nonzeros ∧
    (∀ j k, j < (m.retain cond).majorDim →
      (m.retain cond).offsets.getD j 0 ≤ k →
      k + 1 < (m.retain cond).offsets.getD (j + 1) 0 →
      (m.retain cond).indices.getD k 0 < (m.retain cond).indices.getD (k + 1) 0) := by
  obtain ⟨hI, _, _, _, _, hcond⟩ := retain_spec m hm cond
  exact ⟨hcond, hI.offsets_mono, hI.offsets_last, hI.sorted⟩

theorem spec_c4_w :
    mEx.invariantHolds = true ∧
    ((∀ j t, j < (mEx.retain condEx).majorDim →
      (mEx.retain condEx).offsets.getD j 0 ≤ t →
      t < (mEx.retain condEx).offsets.getD (j + 1) 0 →
      condAt mEx.variant condEx j ((mEx.retain condEx).indices.getD t 0)
        ((mEx.retain condEx).values.getD t 0) = true) ∧
    (∀ j, j + 1 ≤ (mEx.retain condEx).majorDim →
      (mEx.retain condEx).offsets.getD j 0 ≤
        (mEx.retain condEx).offsets.getD (j + 1) 0) ∧
    (mEx.retain condEx).offsets.getD (mEx.retain condEx).majorDim 0 =
      (mEx.retain condEx).nonzeros ∧
    (∀ j k, j < (mEx.retain condEx).majorDim →
      (mEx.retain condEx).offsets.getD j 0 ≤ k →
      k + 1 < (mEx.retain condEx).offsets.getD (j + 1) 0 →
      (mEx.retain condEx).indices.getD k 0 <
        (mEx.retain condEx).indices.getD (k + 1) 0)) :=
  ⟨by decide, spec_c4 mEx (Invariant.of_bool mEx (by decide)) condEx⟩

/-- C5: `set` treats zero like any other value: at an in-bounds coordinate
with no stored entry, setting zero inserts a stored entry and increments
the stored-entry count by one. -/
theorem spec_c5 (m : Compressed) (hm : Invariant m) (i j : Nat)
    (hi : i < m.rows) (hj : j < m.columns) (hst : m.stored i j = false) :
    (m.set i j 0).nonzeros = m.nonzeros + 1 :=
  nonzeros_set_of_not_stored m hm i j 0 hi hj hst

theorem spec_c5_w :
    mEx.invariantHolds = true ∧ (4 : Nat) < mEx.rows ∧ (0 : Nat) < mEx.columns ∧
    mEx.stored 4 0 = false ∧ mEx.nonzeros = 4 ∧ (mEx.set 4 0 0).nonzeros = 5 :=
  ⟨by decide, by decide, by decide, by decide, by decide,
   spec_c5 mEx (Invariant.of_bool mEx (by decide)) 4 0 (by decide) (by decide)
     (by decide)⟩

/-- C6: `resize` is monotone: it never increases the stored-entry count,
and growing to larger or equal dimensions never changes the value read at
any previously in-bounds coordinate. -/
theorem spec_c6 (m : Compressed) (hm : Invariant m) :
    (∀ r c, (m.resize r c).nonzeros ≤ m.nonzeros) ∧
    (∀ r c, m.rows ≤ r → m.columns ≤ c → ∀ i j, i < m.rows → j < m.columns →
      (m.resize r c).get i j = m.get i j) :=
  ⟨fun r c => resize_nonzeros_le m hm r c,
   fun r c hr hc i j hi hj => get_resize_grow m hm r c hr hc i j hi hj⟩

theorem spec_c6_w :
    mEx.invariantHolds = true ∧
    ((∀ r c, (mEx.resize r c).nonzeros ≤ mEx.nonzeros) ∧
     (∀ r c, mEx.rows ≤ r → mEx.columns ≤ c → ∀ i j, i < mEx.rows → j < mEx.columns →
       (mEx.resize r c).get i j = mEx.get i j)) :=
  ⟨by decide, spec_c6 mEx (Invariant.of_bool mEx (by decide))⟩

/-- C7: `get` at an in-bounds coordinate with no stored entry is not an
error: it returns the element type's zero value. -/
theorem spec_c7 (m : Compressed) (hm : Invariant m) (i j : Nat)
    (hi : i < m.rows) (hj : j < m.columns) (hst : m.stored i j = false) :
    m.get i j = 0 :=
  get_eq_zero_of_not_stored m hm i j hi hj hst

theorem spec_c7_w :
    mEx.invariantHolds = true ∧ (4 : Nat) < mEx.rows ∧ (0 : Nat) < mEx.columns ∧
    mEx.stored 4 0 = false ∧ mEx.get 4 0 = 0 :=
  ⟨by decide, by decide, by decide, by decide,
   spec_c7 mEx (Invariant.of_bool mEx (by decide)) 4 0 (by decide) (by decide)
     (by decide)⟩

/-- C8: the sparse-times-dense kernel is add-into: for a column-variant
left operand of shape m x p, a dense column-major buffer of shape p x n,
and any pre-seeded output buffer of shape m x n, `multiply_into` leaves
the output equal to its prior contents plus the exact matrix product,
entry by entry. -/
theorem spec_c8 (a : Compressed) (ha : Invariant a)
    (hvar : a.variant = Variant.column) (b c : List Int) (n : Nat)
    (hp : 0 < a.columns) (hb : b.length = a.columns * n)
    (hc : c.length = a.rows * n) :
    (a.multiplyInto b c).length = c.length ∧
    (∀ col i, col < n → i < a.rows →
      (a.multiplyInto b c).getD (col * a.rows + i) 0 =
        c.getD (col * a.rows + i) 0 +
          ∑ j ∈ Finset.range a.columns, a.get i j *
            b.getD (col * a.columns + j) 0) :=
  multiplyInto_spec a ha hvar b c n hp hb hc

theorem spec_c8_w :
    mEx.invariantHolds = true ∧ mEx.variant = Variant.column ∧
    0 < mEx.columns ∧ bEx.length = mEx.columns * 2 ∧
    accEx.length = mEx.rows * 2 ∧
    ((mEx.multiplyInto bEx accEx).length = accEx.length ∧
     (∀ col i, col < 2 → i < mEx.rows →
       (mEx.multiplyInto bEx accEx).getD (col * mEx.rows + i) 0 =
         accEx.getD (col * mEx.rows + i) 0 +
           ∑ j ∈ Finset.range mEx.columns, mEx.get i j *
             bEx.getD (col * mEx.columns + j) 0)) :=
  ⟨by decide, rfl, by decide, by decide, by decide,
   spec_c8 mEx (Invariant.of_bool mEx (by decide)) rfl bEx accEx 2 (by decide)
     (by decide) (by decide)⟩

/-- C9: converting a diagonal matrix with value array of length
k = min(rows, columns) produces a column-variant compressed matrix with
k stored entries, the diagonal array as values (zeros included),
indices 0..k-1, and offsets of length columns + 1 equal to the position
capped at k. -/
theorem spec_c9 (d : Diagonal) (hlen : d.values.length = min d.rows d.columns) :
    (compressedFromDiagonal d).nonzeros = min d.rows d.columns ∧
    (compressedFromDiagonal d).variant = Variant.column ∧
    (compressedFromDiagonal d).values = d.values ∧
    (compressedFromDiagonal d).indices = List.range (min d.rows d.columns) ∧
    (compressedFromDiagonal d).offsets.length = d.columns + 1 ∧
    (∀ t, t < d.columns + 1 →
      (compressedFromDiagonal d).offsets.getD t 0 =
        if t ≤ min d.rows d.columns then t else min d.rows d.columns) :=
  diagonal_conversion d hlen

theorem spec_c9_w :
    diagEx.values.length = min diagEx.rows diagEx.columns ∧
    ((compressedFromDiagonal diagEx).nonzeros = min diagEx.rows diagEx.columns ∧
     (compressedFromDiagonal diagEx).variant = Variant.column ∧
     (compressedFromDiagonal diagEx).values = diagEx.values ∧
     (compressedFromDiagonal diagEx).indices =
       List.range (min diagEx.rows diagEx.columns) ∧
     (compressedFromDiagonal diagEx).offsets.length = diagEx.columns + 1 ∧
     (∀ t, t < diagEx.columns + 1 →
       (compressedFromDiagonal diagEx).offsets.getD t 0 =
         if t ≤ min diagEx.rows diagEx.columns then t
         else min diagEx.rows diagEx.columns)) :=
  ⟨by decide, spec_c9 diagEx (by decide)⟩

/-- C10: the `nonzeros()` method counts the stored values different from
zero, so it never exceeds the `nonzeros` field, with equality exactly
when no stored value equals zero. -/
theorem spec_c10 (m : Compressed) (hm : Invariant m) :
    m.nonzerosCount = (m.values.filter (fun v => decide (v ≠ 0))).length ∧
    m.nonzerosCount ≤ m.nonzeros ∧
    (m.nonzerosCount = m.nonzeros ↔ ∀ v ∈ m.values, v ≠ 0) := by
  obtain ⟨h1, h2⟩ := countFold_spec m.values 0
  have h3 := countFold_eq_filter m.values 0
  rw [Nat.zero_add] at h1 h2 h3
  rw [hm.values_len] at h1 h2
  unfold Compressed.nonzerosCount
  exact ⟨h3, h1, h2⟩

theorem spec_c10_w :
    mEx.invariantHolds = true ∧
    (mEx.nonzerosCount = (mEx.values.filter (fun v => decide (v ≠ 0))).length ∧
     mEx.nonzerosCount ≤ mEx.nonzeros ∧
     (mEx.nonzerosCount = mEx.nonzeros ↔ ∀ v ∈ mEx.values, v ≠ 0)) :=
  ⟨by decide, spec_c10 mEx (Invariant.of_bool mEx (by decide))⟩

end MatrixSpec
